import Mathlib

/-!
# Verification of the ABCnotes2midi music codec

Shallow embedding of the repository's music-logic functions:

* the MIDI event-stream parser and ABC encoder in `midi_to_abc`
  (`src/abc2midi.py`, identical copy in `src/Merge.py`),
* the duration/pitch token rendering helpers (`midi_note_to_abc` and the
  duration-suffix ladder inside `midi_to_abc`),
* the ABC-text preprocessing of `abc_to_midi` in `src/Gemini.py`
  (directive injection and repeat rewriting),
* the harmonization helpers `analyze_melody_segment`,
  `create_chord_from_roman` and the per-measure chord emission of
  `process_midi_with_chords` (`src/abc2midi.py`).

The notation decoder itself is realized in the source by the external
`music21` ABC parser; it is modelled here from the specification (§4.3),
as are the external `music21` chord constructors used by the analyzer.

Machine integers are modelled as `Nat`/`Int`; the Python float durations
are modelled as `ℚ` (every value manipulated by the embedded code paths is
a ratio of small integers, exactly representable, and the comparisons and
truncations performed on them are exact at these magnitudes).
-/

namespace ABC2Midi

/-! ## Event stream model

`src/abc2midi.py` lines 141-175 iterate over `mid.tracks`; each message
carries a delta time `msg.time`.  `note_on` with velocity `0` is treated
as a note end (line 167). -/

/-- A timed MIDI message, tagged with its delta time in ticks. -/
inductive Msg where
  | noteOn (pitch velocity delta : Nat)
  | noteOff (pitch delta : Nat)
  | setTempo (tempo delta : Nat)
  | timeSig (num den delta : Nat)
  | meta (delta : Nat)
  deriving DecidableEq, Repr

/-- Delta time (`msg.time`) of a message. -/
def Msg.delta : Msg → Nat
  | .noteOn _ _ d => d
  | .noteOff _ d => d
  | .setTempo _ d => d
  | .timeSig _ _ d => d
  | .meta d => d

/-- A track is a list of messages; a file is a list of tracks. -/
abbrev Track := List Msg

/-! ## First pass: tempo and time signature (lines 141-151)

The state is `(microseconds_per_beat, time_sig_num, time_sig_den)`,
initialized to `(500000, 4, 4)`; every `set_tempo` and `time_signature`
message overwrites the corresponding components. -/

/-- One step of the tempo/time-signature collection loop. -/
def firstPassStep (s : Nat × Nat × Nat) (m : Msg) : Nat × Nat × Nat :=
  match m with
  | .setTempo t _ => (t, s.2.1, s.2.2)
  | .timeSig n d _ => (s.1, n, d)
  | _ => s

/-- The first pass over all tracks (lines 142-151): collected
`(microseconds_per_beat, time_sig_num, time_sig_den)`. -/
def firstPass (tracks : List Track) : Nat × Nat × Nat :=
  tracks.foldl (fun s tr => tr.foldl firstPassStep s) (500000, 4, 4)

/-- BPM derived from microseconds per beat, `int(60000000 / microseconds_per_beat)`
(line 146).  For the 24-bit tempo values a MIDI file can carry, the float
division is exact enough that truncation agrees with `Nat` division. -/
def bpmOf (usecPerBeat : Nat) : Nat := 60000000 / usecPerBeat

/-! ## Second pass: note collection (lines 158-175)

`active_notes` is a dict from pitch to the tick at which the note started;
it is shared across tracks, while `current_ticks` resets per track.
Emitted notes are `('note', pitch, duration)` tuples; the code computes
`start_ticks` and `duration_ticks = current_ticks - start_ticks` first,
so we record both (cross-track dangling entries can make the difference
negative, hence `Int`). -/

/-- A note record as assembled by the second pass: the pitch, the tick at
which its `note_on` was seen, and `current_ticks - start_ticks` at its
`note_off`. -/
structure NoteRec where
  pitch : Nat
  startTicks : Nat
  durTicks : Int
  deriving DecidableEq, Repr

/-- Association-list model of the `active_notes` dict (only lookup,
overwrite and delete are used, so entry order is unobservable). -/
def alistSet (l : List (Nat × Nat)) (k v : Nat) : List (Nat × Nat) :=
  match l with
  | [] => [(k, v)]
  | (k', v') :: t => if k' = k then (k, v) :: t else (k', v') :: alistSet t k v

/-- Lookup in the `active_notes` model. -/
def alistGet (l : List (Nat × Nat)) (k : Nat) : Option Nat :=
  match l with
  | [] => none
  | (k', v') :: t => if k' = k then some v' else alistGet t k

/-- Deletion in the `active_notes` model. -/
def alistDel (l : List (Nat × Nat)) (k : Nat) : List (Nat × Nat) :=
  match l with
  | [] => []
  | (k', v') :: t => if k' = k then t else (k', v') :: alistDel t k

/-- State of the second pass inside one track:
`(active_notes, current_ticks, notes emitted so far)`. -/
abbrev PassState := List (Nat × Nat) × Nat × List NoteRec

/-- Processing of one message in the second pass (lines 162-175).
`current_ticks` is advanced by the delta first (line 163); a `note_on`
with positive velocity overwrites the active entry for its pitch
(line 166); a `note_off` (or zero-velocity `note_on`) emits a note only
when an active entry exists, then deletes it (lines 167-174). -/
def noteStep (st : PassState) (m : Msg) : PassState :=
  let active := st.1
  let ticks := st.2.1 + m.delta
  let notes := st.2.2
  match m with
  | .noteOn p v _ =>
      if v > 0 then (alistSet active p ticks, ticks, notes)
      else
        match alistGet active p with
        | some s => (alistDel active p, ticks, notes ++ [⟨p, s, (ticks : Int) - s⟩])
        | none => (active, ticks, notes)
  | .noteOff p _ =>
      match alistGet active p with
      | some s => (alistDel active p, ticks, notes ++ [⟨p, s, (ticks : Int) - s⟩])
      | none => (active, ticks, notes)
  | _ => (active, ticks, notes)

/-- The second pass over one track: `current_ticks` restarts at `0`
(line 161), the active dict and emitted notes carry over. -/
def trackPass (st : List (Nat × Nat) × List NoteRec) (tr : Track) :
    List (Nat × Nat) × List NoteRec :=
  let r := tr.foldl noteStep (st.1, 0, st.2)
  (r.1, r.2.2)

/-- The notes collected by the second pass of `midi_to_abc`
(lines 158-175), in emission order. -/
def parseNotes (tracks : List Track) : List NoteRec :=
  (tracks.foldl trackPass ([], [])).2

/-- Start of a note in quarter-note units, `start_ticks / ticks_per_beat`
(§4.1 contract; the source computes `start_ticks` at line 169). -/
def NoteRec.startQ (n : NoteRec) (ticksPerBeat : Nat) : ℚ :=
  (n.startTicks : ℚ) / (ticksPerBeat : ℚ)

/-- Duration of a note in quarter-note units,
`duration_ticks / ticks_per_quarter` (line 172). -/
def NoteRec.durQ (n : NoteRec) (ticksPerBeat : Nat) : ℚ :=
  (n.durTicks : ℚ) / (ticksPerBeat : ℚ)

/-! ## Decimal numerals

Python's `str(n)` / `int(...)` on the small nonnegative integers the
encoder manipulates. -/

/-- Fuel-driven digit expansion; `natDecimal` supplies enough fuel. -/
def natDecimalAux : Nat → Nat → List Char
  | 0, n => [Nat.digitChar n]
  | fuel + 1, n =>
      if n < 10 then [Nat.digitChar n]
      else natDecimalAux fuel (n / 10) ++ [Nat.digitChar (n % 10)]

/-- Decimal rendering of a natural number, most significant digit first
(model of Python `str(n)` for `n ≥ 0`). -/
def natDecimal (n : Nat) : List Char := natDecimalAux n n

/-- Python `int(q)` on a rational: truncation toward zero. -/
def pyint (q : ℚ) : Int :=
  if q < 0 then -⌊-q⌋ else ⌊q⌋

/-- Python `str(i)` for an integer. -/
def intDecimal (i : Int) : List Char :=
  if i < 0 then '-' :: natDecimal i.natAbs else natDecimal i.toNat

/-- Value of one decimal digit character. -/
def digitVal (c : Char) : Nat := c.toNat - 48

/-- Parse a nonempty all-digit character list as a natural number. -/
def parseNatList (cs : List Char) : Option Nat :=
  if cs ≠ [] ∧ cs.all Char.isDigit then
    some (cs.foldl (fun a c => a * 10 + digitVal c) 0)
  else none

/-! ## Duration suffix (encoder, `midi_to_abc` lines 196-212)

`duration` is the quarter-note length of the note; the suffix is appended
to the pitch token.  The Python float comparisons (`!=`, `is_integer`,
`abs (…) < 0.01`) are exact on the dyadic/small-denominator values
involved, so the `ℚ` model is faithful. -/

/-- The duration-suffix ladder of `midi_to_abc` (lines 196-212). -/
def durSuffix (d : ℚ) : List Char :=
  if d = 1 then []
  else if d.den = 1 then intDecimal d.num
  else if |d - 1/2| < 1/100 then ['/', '2']
  else if |d - 1/4| < 1/100 then ['/', '4']
  else if |d - 3/2| < 1/100 then ['3', '/', '2']
  else if |d - 3/4| < 1/100 then ['3', '/', '4']
  else intDecimal (pyint (d * 4)) ++ ['/', '4']

/-! ## Pitch tokens (`midi_note_to_abc`, lines 106-124) -/

/-- The chromatic note-name table `['C','^C','D',…,'B']`: sharp flag and
letter for each pitch class. -/
def noteName (idx : Nat) : Bool × Char :=
  match idx with
  | 0 => (false, 'C')
  | 1 => (true, 'C')
  | 2 => (false, 'D')
  | 3 => (true, 'D')
  | 4 => (false, 'E')
  | 5 => (false, 'F')
  | 6 => (true, 'F')
  | 7 => (false, 'G')
  | 8 => (true, 'G')
  | 9 => (false, 'A')
  | 10 => (true, 'A')
  | _ => (false, 'B')

/-- Assemble a name token from sharp flag and letter (`'^C'` / `'C'`). -/
def nameToken (sharp : Bool) (c : Char) : List Char :=
  if sharp then ['^', c] else [c]

/-- `midi_note_to_abc` (lines 106-124): octave `midi // 12 - 1`, octave 4
bare, octave 5 lower-case, above 5 lower-case plus apostrophes, octave 3
one comma, below 3 `4 - octave` commas. -/
def midiNoteToAbc (m : Nat) : List Char :=
  let oct : Int := (m / 12 : Nat) - 1
  let nm := noteName (m % 12)
  if oct = 4 then nameToken nm.1 nm.2
  else if oct = 5 then nameToken nm.1 nm.2.toLower
  else if oct > 5 then nameToken nm.1 nm.2.toLower ++ List.replicate (oct - 5).toNat '\''
  else if oct = 3 then nameToken nm.1 nm.2 ++ [',']
  else nameToken nm.1 nm.2 ++ List.replicate (4 - oct).toNat ','

/-! ## Encoder: ABC text assembly (`midi_to_abc` lines 177-226) -/

/-- Body lines: for each note a pitch+suffix token on its own line; the
running measure total is increased by the note's duration and a bar line
is appended once it reaches `beats_per_measure` (lines 188-220). -/
def encBody (beats : ℚ) : List (Nat × ℚ) → ℚ → List (List Char)
  | [], _ => []
  | (p, d) :: t, acc =>
      let line := midiNoteToAbc p ++ durSuffix d
      let acc' := acc + d
      if acc' ≥ beats then line :: ['|'] :: encBody beats t 0
      else line :: encBody beats t acc'

/-- The full line list produced by `midi_to_abc` (lines 177-224): fixed
header, body, and a final bar line unless the last line already is one. -/
def encodeLines (notes : List (Nat × ℚ)) (tempo tsn tsd : Nat) : List (List Char) :=
  let header : List (List Char) :=
    [['X', ':', '1'],
     ['T', ':', 'C', 'o', 'n', 'v', 'e', 'r', 't', 'e', 'd', ' ', 'f', 'r', 'o', 'm',
      ' ', 'M', 'I', 'D', 'I'],
     'Q' :: ':' :: '1' :: '/' :: '4' :: '=' :: natDecimal tempo,
     'M' :: ':' :: (natDecimal tsn ++ '/' :: natDecimal tsd),
     ['L', ':', '1', '/', '4'],
     ['K', ':', 'C'],
     []]
  let all := header ++ encBody (tsn : ℚ) notes 0
  if all.getLast? = some ['|'] then all else all ++ [['|']]

/-- `"\n".join(...)`: lines joined by single newlines. -/
def joinNl : List (List Char) → List Char
  | [] => []
  | [l] => l
  | l :: ls => l ++ '\n' :: joinNl ls

/-- The ABC text returned by `midi_to_abc`: lines joined by newlines. -/
def encodeChars (notes : List (Nat × ℚ)) (tempo tsn tsd : Nat) : List Char :=
  joinNl (encodeLines notes tempo tsn tsd)

/-! ## Notation decoder

Modelled from the spec: the decoder (§4.3) is realized in the source by
the external `music21` ABC parser (`converter.parse` in `abc_to_midi`),
which is not part of this repository.  Directives are line-oriented
single-letter tags (§6); the body is whitespace-separated note / chord /
bar tokens; a note token is accidental + letter + octave marks + duration
suffix; the suffix grammar supports the empty suffix, bare integers and
fractions; unparseable tokens are a `NotationSyntaxError` carrying the
token (modelled as `Except.error token`). -/

/-- Characters that can appear in the pitch part of a note token. -/
def isPitchChar (c : Char) : Bool :=
  c == '^' || c == '_' || c == '\'' || c == ',' ||
    c == 'C' || c == 'D' || c == 'E' || c == 'F' || c == 'G' || c == 'A' || c == 'B' ||
    c == 'c' || c == 'd' || c == 'e' || c == 'f' || c == 'g' || c == 'a' || c == 'b'

/-- Letter of a note token: semitone within the octave and base octave
(upper case = octave 4, lower case = octave 5). -/
def letterInfo (c : Char) : Option (Int × Int) :=
  match c with
  | 'C' => some (0, 4)
  | 'D' => some (2, 4)
  | 'E' => some (4, 4)
  | 'F' => some (5, 4)
  | 'G' => some (7, 4)
  | 'A' => some (9, 4)
  | 'B' => some (11, 4)
  | 'c' => some (0, 5)
  | 'd' => some (2, 5)
  | 'e' => some (4, 5)
  | 'f' => some (5, 5)
  | 'g' => some (7, 5)
  | 'a' => some (9, 5)
  | 'b' => some (11, 5)
  | _ => none

/-- Greedily parse one pitch (accidental, letter, octave marks) from the
front of a token, returning the MIDI number and the remaining characters. -/
def parsePitchStep (cs : List Char) : Option (Nat × List Char) :=
  let accPair : Int × List Char :=
    match cs with
    | '^' :: t => (1, t)
    | '_' :: t => (-1, t)
    | _ => (0, cs)
  match accPair.2 with
  | [] => none
  | c :: rest =>
      match letterInfo c with
      | none => none
      | some (sem, octBase) =>
          let apos := rest.takeWhile (· == '\'')
          let rest1 := rest.dropWhile (· == '\'')
          let commas := rest1.takeWhile (· == ',')
          let rest2 := rest1.dropWhile (· == ',')
          let midi : Int :=
            12 * (octBase + apos.length - commas.length + 1) + sem + accPair.1
          if 0 ≤ midi ∧ midi ≤ 127 then some (midi.toNat, rest2) else none

/-- Parse a whole pitch part (one pitch consuming every character). -/
def parsePitchTok (cs : List Char) : Option Nat :=
  match parsePitchStep cs with
  | some (p, []) => some p
  | _ => none

/-- Parse a duration suffix: empty = one base unit, `N` = `N` base units,
`/M` = `1/M`, `N/M` = `N/M` of the base unit. -/
def parseSuffTok (cs : List Char) : Option ℚ :=
  let num := cs.takeWhile Char.isDigit
  let rest := cs.dropWhile Char.isDigit
  let nval : ℚ :=
    match parseNatList num with
    | some n => (n : ℚ)
    | none => 1
  match rest with
  | [] => some nval
  | '/' :: den =>
      match parseNatList den with
      | some m => if m ≠ 0 then some (nval / (m : ℚ)) else none
      | none => none
  | _ => none

/-- Parse a note token: pitch part (maximal run of pitch characters),
then duration suffix; the duration is the suffix value scaled by the
base unit (in quarter lengths). -/
def parseNoteTok (base : ℚ) (cs : List Char) : Option (Nat × ℚ) :=
  let pp := cs.takeWhile isPitchChar
  let sp := cs.dropWhile isPitchChar
  match parsePitchTok pp, parseSuffTok sp with
  | some p, some v => some (p, v * base)
  | _, _ => none

/-- Parse the pitches inside a chord token (between the brackets). -/
def parseChordPitches : List Char → Option (List Nat)
  | [] => some []
  | cs =>
      match parsePitchStep cs with
      | some (p, rest) =>
          if _h : rest.length < cs.length then
            match parseChordPitches rest with
            | some ps => some (p :: ps)
            | none => none
          else none
      | none => none
  termination_by cs => cs.length

/-- Parse one body token into the notes it contributes: a bar token or a
rest contributes none, a chord token contributes its grouped notes, any
other token must be a note token; otherwise the token is the error. -/
def parseTok (base : ℚ) (cs : List Char) : Except (List Char) (List (Nat × ℚ)) :=
  if cs = ['|'] ∨ cs = [':', '|'] then .ok []
  else
    match cs with
    | [] => .error []
    | c :: rest =>
        if c == 'z' then
          match parseSuffTok rest with
          | some _ => .ok []
          | none => .error cs
        else if c == '[' then
          let inner := rest.takeWhile (· ≠ ']')
          let after := rest.dropWhile (· ≠ ']')
          match after with
          | ']' :: suff =>
              match parseChordPitches inner, parseSuffTok suff with
              | some ps, some v => .ok (ps.map (fun p => (p, v * base)))
              | _, _ => .error cs
          | _ => .error cs
        else
          match parseNoteTok base cs with
          | some nv => .ok [nv]
          | none => .error cs

/-- Split a character list at every occurrence of a separator. -/
def splitOnChar (sep : Char) : List Char → List (List Char)
  | [] => [[]]
  | c :: t =>
      match splitOnChar sep t with
      | [] => [[c]]
      | h :: rest => if c == sep then [] :: h :: rest else (c :: h) :: rest

/-- Decoder state: seen base unit, tempo and time signature directives,
and the notes decoded so far. -/
structure DecState where
  base : Option ℚ
  tempo : Option Nat
  ts : Option (Nat × Nat)
  notes : List (Nat × ℚ)
  deriving Repr

/-- Base-unit payload `n/m` (quarter length `4*n/m`), spaces tolerated. -/
def parseBaseUnit (cs : List Char) : Option ℚ :=
  let cs := cs.dropWhile (· == ' ')
  let num := cs.takeWhile Char.isDigit
  let rest := cs.dropWhile Char.isDigit
  match parseNatList num, rest with
  | some n, '/' :: den =>
      match parseNatList den with
      | some m => if m ≠ 0 then some (4 * (n : ℚ) / (m : ℚ)) else none
      | none => none
  | _, _ => none

/-- Tempo payload: the integer after the `=` (e.g. `1/4=120`), or a bare
integer. -/
def parseTempoPayload (cs : List Char) : Option Nat :=
  if cs.contains '=' then
    parseNatList ((cs.dropWhile (· ≠ '=')).drop 1)
  else parseNatList cs

/-- Time-signature payload `n/m`. -/
def parseTsPayload (cs : List Char) : Option (Nat × Nat) :=
  let num := cs.takeWhile Char.isDigit
  let rest := cs.dropWhile Char.isDigit
  match parseNatList num, rest with
  | some n, '/' :: den =>
      match parseNatList den with
      | some m => some (n, m)
      | none => none
  | _, _ => none

/-- Is this line a header directive (single letter tag plus colon)? -/
def isDirectiveLine (cs : List Char) : Bool :=
  match cs with
  | a :: b :: _ => a.isAlpha && b == ':'
  | _ => false

/-- Fold the body tokens of one line into the decoder state. -/
def tokLoop (base : ℚ) : List (List Char) → DecState → Except (List Char) DecState
  | [], s => .ok s
  | tok :: ts, s =>
      match parseTok base tok with
      | .ok ns => tokLoop base ts { s with notes := s.notes ++ ns }
      | .error e => .error e

/-- Process one line: empty lines are skipped, directive lines update the
header state (unknown or unparseable directives are tolerated), any other
line is whitespace-separated body tokens. -/
def decodeLine (st : DecState) (line : List Char) : Except (List Char) DecState :=
  if line = [] then .ok st
  else if isDirectiveLine line then
    let payload := line.drop 2
    match line.head? with
    | some 'L' =>
        .ok { st with base := (parseBaseUnit payload).orElse fun _ => st.base }
    | some 'Q' =>
        .ok { st with tempo := (parseTempoPayload payload).orElse fun _ => st.tempo }
    | some 'M' =>
        .ok { st with ts := (parseTsPayload payload).orElse fun _ => st.ts }
    | _ => .ok st
  else
    tokLoop (st.base.getD (1 / 2)) ((splitOnChar ' ' line).filter (· ≠ [])) st

/-- Fold the decoder over the lines of the text. -/
def lineLoop : List (List Char) → DecState → Except (List Char) DecState
  | [], st => .ok st
  | l :: ls, st =>
      match decodeLine st l with
      | .ok st' => lineLoop ls st'
      | .error e => .error e

/-- Modelled from the spec: `decode(text)` (§4.3).  Fails on blank input,
supplies the default base unit `1/8` (quarter length `1/2`) when no
base-unit directive is seen and the caller-supplied fallback tempo when
no tempo directive is seen, and rejects unparseable body tokens with the
offending token. -/
def decodeChars (fallbackTempo : Nat) (cs : List Char) :
    Except (List Char) (List (Nat × ℚ) × Nat × (Nat × Nat)) :=
  if cs.all (fun c => c == ' ' || c == '\n' || c == '\t' || c == '\r') then .error []
  else
    match lineLoop (splitOnChar '\n' cs) ⟨none, none, none, []⟩ with
    | .ok st => .ok (st.notes, st.tempo.getD fallbackTempo, st.ts.getD (4, 4))
    | .error e => .error e

/-! ## Decoder-side preprocessing (`abc_to_midi` in `src/Gemini.py`,
lines 82-96)

The function strips the input, raises on blank input, prepends `L: 1/8`
unless `re.search(r"^L:\s*1/8", …, re.MULTILINE)` matches, prepends
`Q:1/4=<tempo>` unless `re.search(r"^Q:", …, re.MULTILINE)` matches, and
finally rewrites every bar `|` to `:|`. -/

/-- Python `\s` (the whitespace class used by `str.strip` and `re`). -/
def isPySpace (c : Char) : Bool :=
  c == ' ' || c == '\t' || c == '\n' || c == '\r' || c == '\x0b' || c == '\x0c'

/-- Python `str.strip()`. -/
def pyStrip (cs : List Char) : List Char :=
  ((cs.dropWhile isPySpace).reverse.dropWhile isPySpace).reverse

/-- Does `L:\s*1/8` match at this position? -/
def patL18 (cs : List Char) : Bool :=
  match cs with
  | 'L' :: ':' :: t => (t.dropWhile isPySpace).take 3 = ['1', '/', '8']
  | _ => false

/-- Does `Q:` match at this position? -/
def patQ (cs : List Char) : Bool :=
  match cs with
  | 'Q' :: ':' :: _ => true
  | _ => false

/-- Does any base-unit directive (`L:`) start a line?  (The predicate the
claimed behavior keys on.) -/
def patAnyL (cs : List Char) : Bool :=
  match cs with
  | 'L' :: ':' :: _ => true
  | _ => false

/-- Does the pattern match at some position just after a newline? -/
def searchAfterNl (pat : List Char → Bool) : List Char → Bool
  | [] => false
  | c :: t => (c == '\n' && pat t) || searchAfterNl pat t

/-- `re.search` with `re.MULTILINE` and a `^`-anchored pattern: a match
at the start of the text or right after any newline. -/
def searchML (pat : List Char → Bool) (cs : List Char) : Bool :=
  pat cs || searchAfterNl pat cs

/-- The injected base-unit line. -/
def lLine : List Char := ['L', ':', ' ', '1', '/', '8', '\n']

/-- The injected tempo line. -/
def qLine (tempo : Nat) : List Char :=
  ['Q', ':', '1', '/', '4', '='] ++ natDecimal tempo ++ ['\n']

/-- The two directive injections of `abc_to_midi` (`src/Gemini.py` lines
89-94). -/
def injectDirectives (cs : List Char) (tempo : Nat) : List Char :=
  let t1 := if searchML patL18 cs then cs else lLine ++ cs
  if searchML patQ t1 then t1 else qLine tempo ++ t1

/-- The repeat rewriting (line 96): `re.sub(r"\|(?=[^\|]*)", ":|", …)`.
The lookahead always matches (possibly emptily), so every `|` becomes
`:|`. -/
def repeatSub : List Char → List Char
  | [] => []
  | c :: t => if c == '|' then ':' :: '|' :: repeatSub t else c :: repeatSub t

/-- The whole text preprocessing of `abc_to_midi` before `converter.parse`
(`src/Gemini.py` lines 85-96): `none` models the raise on blank input. -/
def pyAbcPreprocess (cs : List Char) (tempo : Nat) : Option (List Char) :=
  let s := pyStrip cs
  if s = [] then none
  else some (repeatSub (injectDirectives s tempo))

/-- Modelled from the spec: the injection behavior the claim describes,
keyed on the presence of ANY base-unit directive (`L:` at a line start),
not on the specific value `1/8`. -/
def claimedInject (cs : List Char) (tempo : Nat) : List Char :=
  let t1 := if searchML patAnyL cs then cs else lLine ++ cs
  if searchML patQ t1 then t1 else qLine tempo ++ t1

/-! ## Key/chord analyzer (`analyze_melody_segment`, lines 246-284)

A melody element is a pitched note (pitch class `0-11`) or a rest; the
key's tonic pitch class is what the scale-degree arithmetic uses. -/

/-- `(pitch_class - key.tonic.pitchClass) % 12` (line 256); Python `%` on
ints agrees with `Int.emod` for a positive modulus. -/
def scaleDegreeOf (tonic pc : Nat) : Nat :=
  (((pc : Int) - (tonic : Int)).emod 12).toNat

/-- Scale degrees of the pitched elements, rests skipped (lines 252-257). -/
def scaleDegrees (notes : List (Option Nat)) (tonic : Nat) : List Nat :=
  notes.filterMap (fun o => o.map (scaleDegreeOf tonic))

/-- The preferred chord for a scale degree:
`chord_options.get(main_degree, ['I'])[0]` (lines 264-272, 282). -/
def chordOptionPick (d : Nat) : String :=
  match d with
  | 0 => "I"
  | 2 => "ii"
  | 4 => "iii"
  | 5 => "IV"
  | 7 => "V"
  | 9 => "vi"
  | 11 => "vii°"
  | _ => "I"

/-- One step of the `degree_counts` dict building (lines 275-277): an
existing key is incremented in place, a new key is appended. -/
def bump (l : List (Nat × Nat)) (d : Nat) : List (Nat × Nat) :=
  match l with
  | [] => [(d, 1)]
  | (k, c) :: t => if k = d then (k, c + 1) :: t else (k, c) :: bump t d

/-- The `degree_counts` dict in insertion order. -/
def buildCounts (degs : List Nat) : List (Nat × Nat) :=
  degs.foldl bump []

/-- Python `max(items, key=lambda x: x[1])`: scans left to right and
replaces the current best only on a strictly greater count, so the FIRST
maximal item wins. -/
def pyMaxSnd (h : Nat × Nat) (t : List (Nat × Nat)) : Nat × Nat :=
  t.foldl (fun b x => if x.2 > b.2 then x else b) h

/-- `analyze_melody_segment` (lines 246-284): `none` for an empty element
list, `'I'` when only rests are present, otherwise the preferred chord of
the most frequent scale degree. -/
def analyzeMelodySegment (notes : List (Option Nat)) (tonic : Nat) : Option String :=
  if notes = [] then none
  else
    let degs := scaleDegrees notes tonic
    if degs = [] then some "I"
    else
      match buildCounts degs with
      | [] => some "I"
      | h :: t => some (chordOptionPick (pyMaxSnd h t).1)

/-- The fixed canonical degree ordering named by the claim. -/
def canonicalOrder : List Nat := [0, 2, 4, 5, 7, 9, 11]

/-- Modelled from the spec: the claimed selection rule — highest count,
ties broken by the first degree in the canonical ordering `(0,2,4,5,7,9,11)`. -/
def claimedMainDegree (degs : List Nat) : Option Nat :=
  let maxCnt := (degs.map (fun d => degs.count d)).foldl max 0
  let best := degs.filter (fun d => degs.count d = maxCnt)
  match canonicalOrder.find? (fun c => best.contains c) with
  | some d => some d
  | none => best.head?

/-- Modelled from the spec: the chord label the claim's selection rule
would produce. -/
def claimedChord (notes : List (Option Nat)) (tonic : Nat) : Option String :=
  if notes = [] then none
  else
    let degs := scaleDegrees notes tonic
    if degs = [] then some "I"
    else (claimedMainDegree degs).map chordOptionPick

/-! ## Per-measure chord emission (`process_midi_with_chords`,
lines 330-364) -/

/-- A measure element: a pitched note (pitch class) or a rest. -/
inductive MElem where
  | note (pc : Nat)
  | rest
  deriving DecidableEq, Repr

/-- Pitch class of an element, `none` for rests (the
`isinstance(n, note.Note)` filter of line 254). -/
def MElem.pc : MElem → Option Nat
  | .note p => some p
  | .rest => none

/-- A key as the analyzer receives it from the external detector (§3). -/
structure KeyK where
  tonicPc : Nat
  major : Bool
  deriving DecidableEq, Repr

/-- Modelled from the spec: the key's tonic triad, the deterministic
fallback of `create_chord_from_roman` (lines 292-294; the source builds
it with the external `music21` chord constructor). -/
def tonicTriad (k : KeyK) : List Nat :=
  [k.tonicPc, k.tonicPc + (if k.major then 4 else 3), k.tonicPc + 7]

/-- `create_chord_from_roman` (lines 286-294): the external
`roman.RomanNumeral`/`chord.Chord` construction is an oracle that may
fail (`none` models any exception); every failure is caught and the
tonic triad is returned instead. -/
def createChordFromRoman (oracle : String → KeyK → Option (List Nat))
    (label : String) (k : KeyK) : List Nat :=
  match oracle label k with
  | some ps => ps
  | none => tonicTriad k

/-- A cell of the chords-only part: a chord with pitches and duration, or
a rest. -/
inductive HCell where
  | chordP (label : String) (pitches : List Int) (dur : ℚ)
  | restP (dur : ℚ)
  deriving DecidableEq, Repr

/-- Transpose a pitch list down two octaves (`p.octave -= 2`,
lines 349-350). -/
def transposeDown (ps : List Nat) : List Int :=
  ps.map (fun p => Int.ofNat p - 24)

/-- The chord-measure content produced for one melody measure
(lines 338-356): nonempty measures get the analyzed chord of duration
4.0 transposed down two octaves; the rest branch is taken only when the
analyzer returns nothing; empty measures contribute nothing. -/
def measureHCell (oracle : String → KeyK → Option (List Nat))
    (elems : List MElem) (k : KeyK) : List HCell :=
  if elems = [] then []
  else
    match analyzeMelodySegment (elems.map MElem.pc) k.tonicPc with
    | some r =>
        [.chordP r (transposeDown (createChordFromRoman oracle r k)) 4]
    | none => [.restP 4]

/-- The chords-only part over all measures (the `chord_part` loop of
lines 330-364). -/
def harmonizeChordPart (oracle : String → KeyK → Option (List Nat))
    (measures : List (List MElem)) (k : KeyK) : List (List HCell) :=
  measures.map (fun m => measureHCell oracle m k)

/-! ## Helper functions for the parser theorems -/

/-- The tempo payload of a tempo-change message. -/
def tempoOf : Msg → Option Nat
  | .setTempo t _ => some t
  | _ => none

/-- The payload of a time-signature message. -/
def tsOf : Msg → Option (Nat × Nat)
  | .timeSig n d _ => some (n, d)
  | _ => none

/-- All tempo payloads of a stream, in track-then-event order. -/
def tempoValues (tracks : List Track) : List Nat :=
  (tracks.map (List.filterMap tempoOf)).flatten

/-- All time-signature payloads of a stream, in track-then-event order. -/
def tsValues (tracks : List Track) : List (Nat × Nat) :=
  (tracks.map (List.filterMap tsOf)).flatten

/-- Rewrite every tempo payload of a message by `f`, leaving everything
else (deltas included) unchanged. -/
def retempo (f : Nat → Nat) : Msg → Msg
  | .setTempo t d => .setTempo (f t) d
  | m => m

/-- Is this a note-end event (`note_off`, or `note_on` with velocity 0)
for the pitch? -/
def isEndFor (p : Nat) (m : Msg) : Bool :=
  match m with
  | .noteOff q _ => q == p
  | .noteOn q v _ => q == p && v == 0
  | _ => false

/-- Is this a note-start event (`note_on` with positive velocity) for the
pitch? -/
def isStartFor (p : Nat) (m : Msg) : Bool :=
  match m with
  | .noteOn q v _ => q == p && v > 0
  | _ => false

/-- Number of note-end events for a pitch in a stream. -/
def countEnds (p : Nat) (tracks : List Track) : Nat :=
  (tracks.map (List.countP (isEndFor p))).sum

/-- Number of note-start events for a pitch in a stream. -/
def countStarts (p : Nat) (tracks : List Track) : Nat :=
  (tracks.map (List.countP (isStartFor p))).sum

/-! ## Parser lemmas -/

theorem getLastD_cons_shift {α : Type} (a d : α) (l : List α) :
    (a :: l).getLastD d = l.getLastD a := by
  cases l <;> rfl

theorem getLastD_append_split {α : Type} (l₁ l₂ : List α) (d : α) :
    (l₁ ++ l₂).getLastD d = l₂.getLastD (l₁.getLastD d) := by
  induction l₁ generalizing d with
  | nil => rfl
  | cons a t ih => rw [List.cons_append, getLastD_cons_shift, ih, getLastD_cons_shift]

theorem foldl_firstPassStep (msgs : List Msg) (s : Nat × Nat × Nat) :
    msgs.foldl firstPassStep s =
      ((msgs.filterMap tempoOf).getLastD s.1,
        (msgs.filterMap tsOf).getLastD s.2) := by
  induction msgs generalizing s with
  | nil => rfl
  | cons m t ih =>
      obtain ⟨s1, s2, s3⟩ := s
      cases m <;>
        simp only [List.foldl_cons, firstPassStep, tempoOf, tsOf,
          List.filterMap_cons, ih, getLastD_cons_shift]

theorem firstPass_eq_lastD (tracks : List Track) :
    firstPass tracks =
      ((tempoValues tracks).getLastD 500000, (tsValues tracks).getLastD (4, 4)) := by
  suffices key : ∀ s : Nat × Nat × Nat,
      tracks.foldl (fun s tr => tr.foldl firstPassStep s) s =
        (((tracks.map (List.filterMap tempoOf)).flatten).getLastD s.1,
          ((tracks.map (List.filterMap tsOf)).flatten).getLastD s.2) by
    exact key (500000, 4, 4)
  induction tracks with
  | nil => intro s; rfl
  | cons tr rest ih =>
      intro s
      rw [List.foldl_cons, foldl_firstPassStep, ih, List.map_cons, List.flatten_cons,
        List.map_cons, List.flatten_cons, getLastD_append_split, getLastD_append_split]

theorem noteStep_retempo (f : Nat → Nat) (st : PassState) (m : Msg) :
    noteStep st (retempo f m) = noteStep st m := by
  cases m <;> rfl

theorem trackPass_retempo (f : Nat → Nat) (st : List (Nat × Nat) × List NoteRec)
    (tr : Track) : trackPass st (tr.map (retempo f)) = trackPass st tr := by
  rw [trackPass, trackPass, List.foldl_map]
  have key : ∀ s : PassState,
      tr.foldl (fun x y => noteStep x (retempo f y)) s = tr.foldl noteStep s := by
    induction tr with
    | nil => intro s; rfl
    | cons m t ih =>
        intro s
        rw [List.foldl_cons, List.foldl_cons, noteStep_retempo, ih]
  rw [key]

theorem parseNotes_retempo (f : Nat → Nat) (tracks : List Track) :
    parseNotes (tracks.map (List.map (retempo f))) = parseNotes tracks := by
  rw [parseNotes, parseNotes]
  congr 1
  generalize (([], []) : List (Nat × Nat) × List NoteRec) = s
  induction tracks generalizing s with
  | nil => rfl
  | cons tr rest ih =>
      rw [List.map_cons, List.foldl_cons, List.foldl_cons, trackPass_retempo, ih]

/-! Invariant for the single-track nonnegativity claim: every active
start tick is at most the running tick counter, and every emitted note
has nonnegative tick duration. -/

def goodState (st : PassState) : Prop :=
  (∀ kv ∈ st.1, kv.2 ≤ st.2.1) ∧ ∀ n ∈ st.2.2, 0 ≤ n.durTicks

theorem alistSet_mem {l : List (Nat × Nat)} {k v : Nat} {kv : Nat × Nat}
    (h : kv ∈ alistSet l k v) : kv = (k, v) ∨ kv ∈ l := by
  induction l with
  | nil => simpa [alistSet] using h
  | cons a t ih =>
      obtain ⟨k', v'⟩ := a
      rw [alistSet] at h
      by_cases hk : k' = k
      · rw [if_pos hk] at h
        rcases List.mem_cons.1 h with h | h
        · exact .inl h
        · exact .inr (List.mem_cons_of_mem _ h)
      · rw [if_neg hk] at h
        rcases List.mem_cons.1 h with h | h
        · exact .inr (h ▸ List.mem_cons_self _ _)
        · rcases ih h with h' | h'
          · exact .inl h'
          · exact .inr (List.mem_cons_of_mem _ h')

theorem alistGet_mem {l : List (Nat × Nat)} {k s : Nat}
    (h : alistGet l k = some s) : (k, s) ∈ l := by
  induction l with
  | nil => simp [alistGet] at h
  | cons a t ih =>
      obtain ⟨k', v'⟩ := a
      rw [alistGet] at h
      by_cases hk : k' = k
      · rw [if_pos hk] at h
        cases Option.some.inj h
        cases hk
        exact List.mem_cons_self _ _
      · rw [if_neg hk] at h
        exact List.mem_cons_of_mem _ (ih h)

theorem alistDel_subset {l : List (Nat × Nat)} {k : Nat} {kv : Nat × Nat}
    (h : kv ∈ alistDel l k) : kv ∈ l := by
  induction l with
  | nil => simp [alistDel] at h
  | cons a t ih =>
      obtain ⟨k', v'⟩ := a
      rw [alistDel] at h
      by_cases hk : k' = k
      · rw [if_pos hk] at h
        exact List.mem_cons_of_mem _ h
      · rw [if_neg hk] at h
        rcases List.mem_cons.1 h with h | h
        · exact h ▸ List.mem_cons_self _ _
        · exact List.mem_cons_of_mem _ (ih h)

theorem noteStep_good {st : PassState} {m : Msg} (h : goodState st) :
    goodState (noteStep st m) := by
  obtain ⟨hact, hnotes⟩ := h
  have hticks : st.2.1 ≤ st.2.1 + m.delta := Nat.le_add_right _ _
  have hEnd : ∀ (p : Nat) (ticks : Nat), st.2.1 ≤ ticks →
      goodState
        (match alistGet st.1 p with
         | some s => (alistDel st.1 p, ticks, st.2.2 ++ [⟨p, s, (ticks : Int) - s⟩])
         | none => (st.1, ticks, st.2.2)) := by
    intro p ticks hle
    cases hg : alistGet st.1 p with
    | none => exact ⟨fun kv hkv => le_trans (hact _ hkv) hle, hnotes⟩
    | some s =>
        refine ⟨fun kv hkv => le_trans (hact _ (alistDel_subset hkv)) hle,
          fun n hn => ?_⟩
        rcases List.mem_append.1 hn with h' | h'
        · exact hnotes _ h'
        · have hs : s ≤ ticks := le_trans (hact _ (alistGet_mem hg)) hle
          rw [List.mem_singleton] at h'
          subst h'
          show (0 : Int) ≤ (ticks : Int) - s
          omega
  cases m with
  | noteOn p v d =>
      rw [noteStep]
      by_cases hv : v > 0
      · rw [if_pos hv]
        refine ⟨fun kv hkv => ?_, hnotes⟩
        rcases alistSet_mem hkv with h' | h'
        · exact h' ▸ le_refl _
        · exact le_trans (hact _ h') (Nat.le_add_right _ _)
      · rw [if_neg hv]
        exact hEnd p _ (Nat.le_add_right _ _)
  | noteOff p d =>
      rw [noteStep]
      exact hEnd p _ (Nat.le_add_right _ _)
  | setTempo t d => exact ⟨fun kv hkv => le_trans (hact _ hkv) hticks, hnotes⟩
  | timeSig n dd d => exact ⟨fun kv hkv => le_trans (hact _ hkv) hticks, hnotes⟩
  | meta d => exact ⟨fun kv hkv => le_trans (hact _ hkv) hticks, hnotes⟩

theorem foldl_noteStep_good :
    ∀ (msgs : List Msg) (st : PassState), goodState st →
      goodState (msgs.foldl noteStep st) := by
  intro msgs
  induction msgs with
  | nil => exact fun st h => h
  | cons m t ih => exact fun st h => ih _ (noteStep_good h)

/-! ## Claim theorems: C2, C3, C4 -/

/-- C2 (corrected): for every input event stream the parser's returned
`microseconds_per_beat` and time signature come from the LAST
tempo-declaring and LAST time-signature event (defaults `500000` µs/quarter
and `4/4` when none occur), not the first; and tempo payloads never
influence the note list, so tempo-change events are indeed ignored for
duration computation — but so is the first one. -/
theorem claim_C2 :
    (∀ tracks : List Track,
        firstPass tracks =
          ((tempoValues tracks).getLastD 500000, (tsValues tracks).getLastD (4, 4))) ∧
    (∀ (f : Nat → Nat) (tracks : List Track),
        parseNotes (tracks.map (List.map (retempo f))) = parseNotes tracks) :=
  ⟨firstPass_eq_lastD, parseNotes_retempo⟩

/-- C2 counterexample: in a stream whose first tempo-declaring event
carries `500000` and whose second carries `250000`, the parser returns
`250000`, not the first event's value — the claim that the first
occurrence is honored is false. -/
theorem claim_C2_counterexample :
    (firstPass [[.setTempo 500000 0, .setTempo 250000 0]]).1 = 250000 ∧
      (250000 : Nat) ≠ 500000 := by decide

/-- C3 (corrected): for a SINGLE-track stream every parsed note has
nonnegative start and nonnegative duration, but strict positivity fails:
a note-end at the same tick as its note-start yields a zero-duration
note (see the counterexample; across multiple tracks the shared
`active_notes` dict can even produce negative tick durations). -/
theorem claim_C3 (tr : Track) (tpb : Nat) (n : NoteRec)
    (hn : n ∈ parseNotes [tr]) :
    0 ≤ n.durTicks ∧ 0 ≤ n.startQ tpb ∧ 0 ≤ n.durQ tpb := by
  have h := foldl_noteStep_good tr ([], 0, [])
    ⟨fun kv hkv => absurd hkv (List.not_mem_nil _),
      fun x hx => absurd hx (List.not_mem_nil _)⟩
  have hdur : 0 ≤ n.durTicks := h.2 n hn
  refine ⟨hdur, ?_, ?_⟩
  · exact div_nonneg (Nat.cast_nonneg _) (Nat.cast_nonneg _)
  · exact div_nonneg (by exact_mod_cast hdur) (Nat.cast_nonneg _)

/-- C3 witness: the invariant instantiated on a concrete one-note track. -/
theorem claim_C3_witness :
    0 ≤ (⟨60, 0, 10⟩ : NoteRec).durTicks ∧
      0 ≤ (⟨60, 0, 10⟩ : NoteRec).startQ 480 ∧
      0 ≤ (⟨60, 0, 10⟩ : NoteRec).durQ 480 :=
  claim_C3 [.noteOn 60 64 0, .noteOff 60 10] 480 ⟨60, 0, 10⟩ (by decide)

/-- C3 counterexample: a note-start immediately followed by a note-end at
the same tick (`ticks_per_beat = 480`) produces a note of duration `0`,
violating the claimed strict `duration > 0` invariant. -/
theorem claim_C3_counterexample :
    parseNotes [[.noteOn 60 64 0, .noteOff 60 0]] = [⟨60, 0, 0⟩] ∧
      ¬ 0 < (⟨60, 0, 0⟩ : NoteRec).durQ 480 := by
  refine ⟨by decide, ?_⟩
  norm_num [NoteRec.durQ]

/-- C4 (confirmed): the stream with a note-start at tick 0, a second
note-start for the same pitch at tick 480 and a note-end at tick 960
(`ticks_per_beat = 480`) yields exactly one note, whose start is quarter
1.0 and whose duration is 1.0 quarter; the first note-start is discarded. -/
theorem claim_C4 :
    parseNotes [[.noteOn 60 64 0, .noteOn 60 64 480, .noteOff 60 480]] =
        [⟨60, 480, 480⟩] ∧
      (⟨60, 480, 480⟩ : NoteRec).startQ 480 = 1 ∧
      (⟨60, 480, 480⟩ : NoteRec).durQ 480 = 1 := by
  refine ⟨by decide, ?_, ?_⟩ <;> norm_num [NoteRec.startQ, NoteRec.durQ]

/-! ## Counting lemmas for C10 -/

/-- Number of parsed notes carrying a given pitch. -/
def pCount (p : Nat) (notes : List NoteRec) : Nat :=
  notes.countP (fun n => n.pitch == p)

/-- Number of active entries for a given pitch. -/
def aCount (p : Nat) (l : List (Nat × Nat)) : Nat :=
  l.countP (fun kv => kv.1 == p)

theorem aCount_set_ne {k p : Nat} (h : k ≠ p) (l : List (Nat × Nat)) (v : Nat) :
    aCount p (alistSet l k v) = aCount p l := by
  induction l with
  | nil => simp [alistSet, aCount, h]
  | cons a t ih =>
      obtain ⟨k', v'⟩ := a
      rw [alistSet]
      by_cases hk : k' = k
      · subst hk
        simp [aCount, List.countP_cons, h]
      · rw [if_neg hk]
        simp only [aCount, List.countP_cons] at ih ⊢
        omega

theorem aCount_set_le (p : Nat) (l : List (Nat × Nat)) (v : Nat) :
    aCount p (alistSet l p v) ≤ aCount p l + 1 := by
  induction l with
  | nil => simp [alistSet, aCount]
  | cons a t ih =>
      obtain ⟨k', v'⟩ := a
      rw [alistSet]
      by_cases hk : k' = p
      · subst hk
        simp [aCount, List.countP_cons]
      · rw [if_neg hk]
        simp only [aCount, List.countP_cons] at ih ⊢
        omega

theorem aCount_del_ne {k p : Nat} (h : k ≠ p) (l : List (Nat × Nat)) :
    aCount p (alistDel l k) = aCount p l := by
  induction l with
  | nil => simp [alistDel]
  | cons a t ih =>
      obtain ⟨k', v'⟩ := a
      rw [alistDel]
      by_cases hk : k' = k
      · subst hk
        simp [aCount, List.countP_cons, beq_iff_eq, h]
      · rw [if_neg hk]
        simp only [aCount, List.countP_cons] at ih ⊢
        omega

theorem aCount_del_self {p s : Nat} {l : List (Nat × Nat)}
    (h : alistGet l p = some s) : aCount p l = aCount p (alistDel l p) + 1 := by
  induction l with
  | nil => simp [alistGet] at h
  | cons a t ih =>
      obtain ⟨k', v'⟩ := a
      rw [alistGet] at h
      rw [alistDel]
      by_cases hk : k' = p
      · subst hk
        simp [aCount, List.countP_cons]
      · rw [if_neg hk] at h
        rw [if_neg hk]
        simp only [aCount, List.countP_cons] at ih ⊢
        rw [ih h]
        omega

theorem noteStep_bounds (p : Nat) (st : PassState) (m : Msg) :
    (pCount p (noteStep st m).2.2 + aCount p (noteStep st m).1 ≤
      pCount p st.2.2 + aCount p st.1 + (if isStartFor p m then 1 else 0)) ∧
    (pCount p (noteStep st m).2.2 ≤
      pCount p st.2.2 + (if isEndFor p m then 1 else 0)) ∧
    pCount p st.2.2 ≤ pCount p (noteStep st m).2.2 := by
  have hEnd : ∀ (q : Nat) (ticks : Nat), isEndFor p m = (q == p) →
      (pCount p
          (match alistGet st.1 q with
           | some s => (alistDel st.1 q, ticks,
               st.2.2 ++ [NoteRec.mk q s ((ticks : Int) - s)])
           | none => (st.1, ticks, st.2.2)).2.2 +
        aCount p
          (match alistGet st.1 q with
           | some s => (alistDel st.1 q, ticks,
               st.2.2 ++ [NoteRec.mk q s ((ticks : Int) - s)])
           | none => (st.1, ticks, st.2.2)).1 ≤
          pCount p st.2.2 + aCount p st.1 + (if isStartFor p m then 1 else 0)) ∧
        (pCount p
          (match alistGet st.1 q with
           | some s => (alistDel st.1 q, ticks,
               st.2.2 ++ [NoteRec.mk q s ((ticks : Int) - s)])
           | none => (st.1, ticks, st.2.2)).2.2 ≤
          pCount p st.2.2 + (if isEndFor p m then 1 else 0)) ∧
        pCount p st.2.2 ≤ pCount p
          (match alistGet st.1 q with
           | some s => (alistDel st.1 q, ticks,
               st.2.2 ++ [NoteRec.mk q s ((ticks : Int) - s)])
           | none => (st.1, ticks, st.2.2)).2.2 := by
    intro q ticks hE
    cases hg : alistGet st.1 q with
    | none => refine ⟨by simp, by simp, by simp⟩
    | some s =>
        have hcnt : pCount p (st.2.2 ++ [NoteRec.mk q s ((ticks : Int) - s)]) =
            pCount p st.2.2 + (if q == p then 1 else 0) := by
          simp [pCount, List.countP_append, List.countP_cons]
        by_cases hq : q = p
        · subst hq
          have hdel := aCount_del_self hg
          refine ⟨?_, ?_, ?_⟩
          · simp only [hcnt]
            simp only [beq_self_eq_true, if_true]
            omega
          · simp only [hcnt, hE]
            simp only [beq_self_eq_true, if_true]
            omega
          · simp only [hcnt]
            omega
        · have hdel := aCount_del_ne hq st.1
          have hqp : (q == p) = false := by simp [hq]
          refine ⟨?_, ?_, ?_⟩
          · simp only [hcnt, hdel, hqp, Bool.false_eq_true, if_false]
            omega
          · simp only [hcnt, hqp, Bool.false_eq_true, if_false]
            omega
          · simp only [hcnt, hqp, Bool.false_eq_true, if_false]
            omega
  cases m with
  | noteOn q v d =>
      rw [noteStep]
      by_cases hv : v > 0
      · rw [if_pos hv]
        dsimp only [Msg.delta]
        refine ⟨?_, Nat.le_add_right _ _, Nat.le_refl _⟩
        by_cases hq : q = p
        · subst hq
          have := aCount_set_le q st.1 (st.2.1 + d)
          have hstart : (if isStartFor q (.noteOn q v d) then 1 else 0) = 1 := by
            simp [isStartFor, hv]
          rw [hstart]
          omega
        · rw [aCount_set_ne hq]
          omega
      · rw [if_neg hv]
        have hv0 : v = 0 := by omega
        subst hv0
        exact hEnd q _ (by simp [isEndFor])
  | noteOff q d =>
      rw [noteStep]
      exact hEnd q _ (by simp [isEndFor])
  | setTempo t d =>
      exact ⟨Nat.le_add_right _ _, Nat.le_add_right _ _, Nat.le_refl _⟩
  | timeSig n dd d =>
      exact ⟨Nat.le_add_right _ _, Nat.le_add_right _ _, Nat.le_refl _⟩
  | meta d =>
      exact ⟨Nat.le_add_right _ _, Nat.le_add_right _ _, Nat.le_refl _⟩

theorem foldl_noteStep_bounds (p : Nat) :
    ∀ (msgs : List Msg) (st : PassState),
      (pCount p (msgs.foldl noteStep st).2.2 + aCount p (msgs.foldl noteStep st).1 ≤
        pCount p st.2.2 + aCount p st.1 + msgs.countP (isStartFor p)) ∧
      (pCount p (msgs.foldl noteStep st).2.2 ≤
        pCount p st.2.2 + msgs.countP (isEndFor p)) ∧
      pCount p st.2.2 ≤ pCount p (msgs.foldl noteStep st).2.2 := by
  intro msgs
  induction msgs with
  | nil => intro st; refine ⟨by simp, by simp, Nat.le_refl _⟩
  | cons m t ih =>
      intro st
      obtain ⟨hs1, hs2, hs3⟩ := noteStep_bounds p st m
      obtain ⟨hr1, hr2, hr3⟩ := ih (noteStep st m)
      rw [List.foldl_cons, List.countP_cons, List.countP_cons]
      refine ⟨by omega, by omega, by omega⟩

theorem tracks_bounds (p : Nat) :
    ∀ (tracks : List Track) (st : List (Nat × Nat) × List NoteRec),
      (pCount p (tracks.foldl trackPass st).2 + aCount p (tracks.foldl trackPass st).1 ≤
        pCount p st.2 + aCount p st.1 +
          (tracks.map (List.countP (isStartFor p))).sum) ∧
      pCount p (tracks.foldl trackPass st).2 ≤
        pCount p st.2 + (tracks.map (List.countP (isEndFor p))).sum := by
  intro tracks
  induction tracks with
  | nil => intro st; constructor <;> simp
  | cons tr rest ih =>
      intro st
      obtain ⟨ht1, ht2, ht3⟩ := foldl_noteStep_bounds p tr (st.1, 0, st.2)
      obtain ⟨hr1, hr2⟩ := ih (trackPass st tr)
      have e0 : pCount p ((st.1, 0, st.2) : PassState).2.2 = pCount p st.2 := rfl
      have e0' : aCount p ((st.1, 0, st.2) : PassState).1 = aCount p st.1 := rfl
      have e1 : pCount p (tr.foldl noteStep (st.1, 0, st.2)).2.2 =
          pCount p (trackPass st tr).2 := rfl
      have e2 : aCount p (tr.foldl noteStep (st.1, 0, st.2)).1 =
          aCount p (trackPass st tr).1 := rfl
      rw [e0, e0', e1, e2] at ht1
      rw [e0, e1] at ht2
      rw [e0, e1] at ht3
      rw [List.foldl_cons, List.map_cons, List.map_cons, List.sum_cons, List.sum_cons]
      constructor <;> omega

/-! ## Claim theorem: C10 -/

/-- C10 (confirmed): notes are emitted only when a note-end event finds an
active start, so per pitch the number of parsed notes is bounded both by
the number of note-end events and by the number of note-start events for
that pitch; in particular a pitch with note-starts but no note-end
contributes no note at all — dangling starts are silently discarded. -/
theorem claim_C10 (tracks : List Track) (p : Nat) :
    pCount p (parseNotes tracks) ≤ countEnds p tracks ∧
    pCount p (parseNotes tracks) ≤ countStarts p tracks ∧
    (countEnds p tracks = 0 → pCount p (parseNotes tracks) = 0) ∧
    (countStarts p tracks = 0 → pCount p (parseNotes tracks) = 0) := by
  have h := tracks_bounds p tracks ([], [])
  have h1 : pCount p (parseNotes tracks) ≤ countStarts p tracks := by
    have := h.1
    simp only [pCount, aCount, List.countP_nil] at this ⊢
    rw [parseNotes, countStarts]
    omega
  have h2 : pCount p (parseNotes tracks) ≤ countEnds p tracks := by
    have := h.2
    simp only [pCount, aCount, List.countP_nil] at this ⊢
    rw [parseNotes, countEnds]
    omega
  exact ⟨h2, h1, fun he => by omega, fun hs => by omega⟩

/-- C10 witness: a lone unmatched note-start emits no note. -/
theorem claim_C10_witness :
    pCount 60 (parseNotes [[.noteOn 60 64 0]]) = 0 :=
  (claim_C10 [[.noteOn 60 64 0]] 60).2.2.1 (by decide)

/-! ## Analyzer lemmas (C5): characterization of the dict argmax -/

/-- The keys of the `degree_counts` dict, i.e. the distinct degrees in
first-occurrence order. -/
def folKeys (degs : List Nat) : List Nat :=
  degs.foldl (fun acc d => if d ∈ acc then acc else acc ++ [d]) []

/-- Index of the first occurrence of an element. -/
def firstIdx : List Nat → Nat → Nat
  | [], _ => 0
  | x :: t, a => if x = a then 0 else firstIdx t a + 1

theorem mem_folKeys_aux (degs : List Nat) :
    ∀ (acc : List Nat) (a : Nat),
      a ∈ degs.foldl (fun acc d => if d ∈ acc then acc else acc ++ [d]) acc ↔
        a ∈ acc ∨ a ∈ degs := by
  induction degs with
  | nil => intro acc a; simp
  | cons d t ih =>
      intro acc a
      rw [List.foldl_cons]
      by_cases hd : d ∈ acc
      · rw [if_pos hd, ih]
        constructor
        · rintro (h | h)
          · exact .inl h
          · exact .inr (List.mem_cons_of_mem _ h)
        · rintro (h | h)
          · exact .inl h
          · rcases List.mem_cons.1 h with h | h
            · exact .inl (h ▸ hd)
            · exact .inr h
      · rw [if_neg hd, ih]
        simp only [List.mem_append, List.mem_singleton, List.mem_cons]
        tauto

theorem mem_folKeys {degs : List Nat} {a : Nat} : a ∈ folKeys degs ↔ a ∈ degs := by
  rw [folKeys, mem_folKeys_aux]
  simp

theorem folKeys_nodup_aux (degs : List Nat) :
    ∀ acc : List Nat, acc.Nodup →
      (degs.foldl (fun acc d => if d ∈ acc then acc else acc ++ [d]) acc).Nodup := by
  induction degs with
  | nil => exact fun acc h => h
  | cons d t ih =>
      intro acc hacc
      rw [List.foldl_cons]
      by_cases hd : d ∈ acc
      · rw [if_pos hd]; exact ih _ hacc
      · rw [if_neg hd]
        refine ih _ ?_
        rw [List.nodup_append]
        exact ⟨hacc, List.nodup_singleton _,
          fun a ha hb => by cases List.mem_singleton.1 hb; exact hd ha⟩

theorem folKeys_nodup (degs : List Nat) : (folKeys degs).Nodup :=
  folKeys_nodup_aux degs [] List.nodup_nil

theorem folKeys_concat (degs : List Nat) (d : Nat) :
    folKeys (degs ++ [d]) =
      if d ∈ folKeys degs then folKeys degs else folKeys degs ++ [d] := by
  rw [folKeys, folKeys, List.foldl_append]
  rfl

theorem bump_map_not_mem {c : Nat → Nat} {ks : List Nat} {d : Nat} (hd : d ∉ ks) :
    bump (ks.map (fun k => (k, c k))) d = ks.map (fun k => (k, c k)) ++ [(d, 1)] := by
  induction ks with
  | nil => rfl
  | cons k t ih =>
      have hk : k ≠ d := fun h => hd (h ▸ List.mem_cons_self _ _)
      rw [List.map_cons, bump, if_neg hk, ih (fun h => hd (List.mem_cons_of_mem _ h)),
        List.cons_append]

theorem bump_map_mem {c : Nat → Nat} {ks : List Nat} {d : Nat}
    (hnd : ks.Nodup) (hd : d ∈ ks) :
    bump (ks.map (fun k => (k, c k))) d =
      ks.map (fun k => (k, if k = d then c k + 1 else c k)) := by
  induction ks with
  | nil => simp at hd
  | cons k t ih =>
      rw [List.map_cons, bump, List.map_cons]
      by_cases hk : k = d
      · rw [if_pos hk, if_pos hk]
        have hdt : d ∉ t := hk ▸ (List.nodup_cons.1 hnd).1
        have : t.map (fun k => (k, if k = d then c k + 1 else c k)) =
            t.map (fun k => (k, c k)) := by
          refine List.map_congr_left fun x hx => ?_
          rw [if_neg (fun h => hdt (by rw [← h]; exact hx))]
        rw [this]
      · rw [if_neg hk, if_neg hk]
        have hdt : d ∈ t := by
          rcases List.mem_cons.1 hd with h | h
          · exact absurd h.symm hk
          · exact h
        rw [ih (List.nodup_cons.1 hnd).2 hdt]

theorem buildCounts_eq (degs : List Nat) :
    buildCounts degs = (folKeys degs).map (fun k => (k, degs.count k)) := by
  induction degs using List.reverseRecOn with
  | nil => rfl
  | append_singleton degs d ih =>
      rw [buildCounts, List.foldl_append]
      show bump (buildCounts degs) d = _
      rw [ih, folKeys_concat]
      by_cases hd : d ∈ folKeys degs
      · rw [if_pos hd, bump_map_mem (folKeys_nodup degs) hd]
        refine List.map_congr_left fun k hk => ?_
        by_cases hkd : k = d
        · subst hkd
          rw [if_pos rfl, List.count_append, List.count_singleton_self]
        · rw [if_neg hkd, List.count_append, List.count_singleton,
            if_neg (by simpa using fun h : d = k => hkd h.symm), Nat.add_zero]
      · rw [if_neg hd, bump_map_not_mem hd, List.map_append]
        congr 1
        · refine List.map_congr_left fun k hk => ?_
          have hkd : k ≠ d := fun h => hd (h ▸ hk)
          rw [List.count_append, List.count_singleton,
            if_neg (by simpa using fun h : d = k => hkd h.symm), Nat.add_zero]
        · rw [List.map_singleton, List.count_append, List.count_singleton_self,
            List.count_eq_zero_of_not_mem (fun h => hd (mem_folKeys.2 h)),
            Nat.zero_add]

theorem firstIdx_append_left {degs : List Nat} {a : Nat} (h : a ∈ degs)
    (t : List Nat) : firstIdx (degs ++ t) a = firstIdx degs a := by
  induction degs with
  | nil => simp at h
  | cons x degs ih =>
      rw [List.cons_append, firstIdx, firstIdx]
      by_cases hx : x = a
      · rw [if_pos hx, if_pos hx]
      · rw [if_neg hx, if_neg hx]
        rcases List.mem_cons.1 h with h' | h'
        · exact absurd h'.symm hx
        · rw [ih h']

theorem firstIdx_lt_length_of_mem {degs : List Nat} {a : Nat} (h : a ∈ degs) :
    firstIdx degs a < degs.length := by
  induction degs with
  | nil => simp at h
  | cons x degs ih =>
      rw [firstIdx, List.length_cons]
      by_cases hx : x = a
      · rw [if_pos hx]
        exact Nat.succ_pos _
      · rw [if_neg hx]
        rcases List.mem_cons.1 h with h' | h'
        · exact absurd h'.symm hx
        · exact Nat.succ_lt_succ (ih h')

theorem firstIdx_concat_self {degs : List Nat} {d : Nat} (h : d ∉ degs) :
    firstIdx (degs ++ [d]) d = degs.length := by
  induction degs with
  | nil => rw [List.nil_append, firstIdx, if_pos rfl, List.length_nil]
  | cons x degs ih =>
      have hx : x ≠ d := fun hh => h (hh ▸ List.mem_cons_self _ _)
      rw [List.cons_append, firstIdx, if_neg hx, List.length_cons,
        ih (fun hh => h (List.mem_cons_of_mem _ hh))]

theorem folKeys_pairwise (degs : List Nat) :
    (folKeys degs).Pairwise (fun a b => firstIdx degs a < firstIdx degs b) := by
  induction degs using List.reverseRecOn with
  | nil => exact List.Pairwise.nil
  | append_singleton degs d ih =>
      rw [folKeys_concat]
      by_cases hd : d ∈ folKeys degs
      · rw [if_pos hd]
        refine ih.imp_of_mem fun {a b} ha hb hab => ?_
        rw [firstIdx_append_left (mem_folKeys.1 ha), firstIdx_append_left (mem_folKeys.1 hb)]
        exact hab
      · rw [if_neg hd]
        rw [List.pairwise_append]
        refine ⟨ih.imp_of_mem fun {a b} ha hb hab => ?_, List.pairwise_singleton _ _, ?_⟩
        · rw [firstIdx_append_left (mem_folKeys.1 ha),
            firstIdx_append_left (mem_folKeys.1 hb)]
          exact hab
        · intro a ha b hb
          rw [List.mem_singleton] at hb
          subst hb
          rw [firstIdx_append_left (mem_folKeys.1 ha),
            firstIdx_concat_self (fun h => hd (mem_folKeys.2 h))]
          exact firstIdx_lt_length_of_mem (mem_folKeys.1 ha)

theorem pyMaxSnd_spec (h : Nat × Nat) (t : List (Nat × Nat)) :
    pyMaxSnd h t ∈ h :: t ∧
    (∀ x ∈ h :: t, x.2 ≤ (pyMaxSnd h t).2) ∧
    ∃ l₁ l₂, h :: t = l₁ ++ pyMaxSnd h t :: l₂ ∧
      ∀ x ∈ l₁, x.2 < (pyMaxSnd h t).2 := by
  induction t generalizing h with
  | nil =>
      refine ⟨List.mem_cons_self _ _, ?_, [], [], rfl, by simp⟩
      intro x hx
      rw [List.mem_singleton] at hx
      subst hx
      exact Nat.le_refl _
  | cons x t ih =>
      have hstep : pyMaxSnd h (x :: t) = pyMaxSnd (if x.2 > h.2 then x else h) t := rfl
      by_cases hx : x.2 > h.2
      · rw [hstep, if_pos hx]
        obtain ⟨hmem, hbound, l₁, l₂, hsplit, hlt⟩ := ih x
        refine ⟨List.mem_cons_of_mem _ hmem, ?_, h :: l₁, l₂,
          by rw [List.cons_append, ← hsplit], ?_⟩
        · intro y hy
          rcases List.mem_cons.1 hy with hy | hy
          · exact le_of_eq_of_le (congrArg Prod.snd hy)
              (le_trans (Nat.le_of_lt hx) (hbound x (List.mem_cons_self _ _)))
          · exact hbound y hy
        · intro y hy
          rcases List.mem_cons.1 hy with hy | hy
          · exact lt_of_eq_of_lt (congrArg Prod.snd hy)
              (Nat.lt_of_lt_of_le hx (hbound x (List.mem_cons_self _ _)))
          · exact hlt y hy
      · rw [hstep, if_neg hx]
        obtain ⟨hmem, hbound, l₁, l₂, hsplit, hlt⟩ := ih h
        have hxle : x.2 ≤ (pyMaxSnd h t).2 :=
          le_trans (Nat.le_of_not_lt hx) (hbound h (List.mem_cons_self _ _))
        refine ⟨?_, ?_, ?_⟩
        · rcases List.mem_cons.1 hmem with hm | hm
          · rw [hm]
            exact List.mem_cons_self _ _
          · exact List.mem_cons_of_mem _ (List.mem_cons_of_mem _ hm)
        · intro y hy
          rcases List.mem_cons.1 hy with hy | hy
          · exact le_of_eq_of_le (congrArg Prod.snd hy) (hbound h (List.mem_cons_self _ _))
          · rcases List.mem_cons.1 hy with hy | hy
            · exact le_of_eq_of_le (congrArg Prod.snd hy) hxle
            · exact hbound y (List.mem_cons_of_mem _ hy)
        · cases l₁ with
          | nil =>
              rw [List.nil_append] at hsplit
              have hh : h = pyMaxSnd h t := (List.cons.inj hsplit).1
              refine ⟨[], x :: t, ?_, by simp⟩
              rw [List.nil_append, ← hh]
          | cons z l₁' =>
              rw [List.cons_append] at hsplit
              have hz : h = z := (List.cons.inj hsplit).1
              have ht : t = l₁' ++ pyMaxSnd h t :: l₂ := (List.cons.inj hsplit).2
              have hhlt : h.2 < (pyMaxSnd h t).2 := by
                have hzlt := hlt z (List.mem_cons_self _ _)
                rw [← hz] at hzlt
                exact hzlt
              refine ⟨h :: x :: l₁', l₂, ?_, ?_⟩
              · rw [List.cons_append, List.cons_append]
                conv_lhs => rw [ht]
              · intro y hy
                rcases List.mem_cons.1 hy with hy | hy
                · exact lt_of_eq_of_lt (congrArg Prod.snd hy) hhlt
                · rcases List.mem_cons.1 hy with hy | hy
                  · exact lt_of_eq_of_lt (congrArg Prod.snd hy)
                      (Nat.lt_of_le_of_lt (Nat.le_of_not_lt hx) hhlt)
                  · exact hlt y (List.mem_cons_of_mem _ hy)

/-! ## Claim theorems: C5 -/

/-- C5 (corrected): for a measure with at least one pitched note, the
analyzer picks a scale degree of maximal frequency, but ties are broken
by the degree FIRST ENCOUNTERED in the measure's own note order (the
insertion order of the counting dict), not by the canonical ordering
(0,2,4,5,7,9,11); the winner is mapped through the fixed table with
fallback `I`, and in particular a measure containing only degrees 1 and 6
yields `I`. -/
theorem claim_C5 (notes : List (Option Nat)) (tonic : Nat)
    (h : scaleDegrees notes tonic ≠ []) :
    (∃ d, d ∈ scaleDegrees notes tonic ∧
      analyzeMelodySegment notes tonic = some (chordOptionPick d) ∧
      (∀ e ∈ scaleDegrees notes tonic,
        (scaleDegrees notes tonic).count e ≤ (scaleDegrees notes tonic).count d) ∧
      (∀ e ∈ scaleDegrees notes tonic,
        (scaleDegrees notes tonic).count e = (scaleDegrees notes tonic).count d →
          firstIdx (scaleDegrees notes tonic) d ≤ firstIdx (scaleDegrees notes tonic) e)) ∧
    ((∀ e ∈ scaleDegrees notes tonic, e = 1 ∨ e = 6) →
      analyzeMelodySegment notes tonic = some "I") := by
  have hnotes : notes ≠ [] := by
    intro hn
    rw [hn] at h
    exact h rfl
  have hb : buildCounts (scaleDegrees notes tonic) ≠ [] := by
    rw [buildCounts_eq]
    intro hmap
    obtain ⟨d0, hd0⟩ := List.exists_mem_of_ne_nil _ h
    have hfol : d0 ∈ folKeys (scaleDegrees notes tonic) := mem_folKeys.2 hd0
    rw [List.map_eq_nil_iff.1 hmap] at hfol
    exact absurd hfol (List.not_mem_nil _)
  cases hbc : buildCounts (scaleDegrees notes tonic) with
  | nil => exact absurd hbc hb
  | cons hd tl =>
      have hana : analyzeMelodySegment notes tonic =
          some (chordOptionPick (pyMaxSnd hd tl).1) := by
        show (if notes = [] then none
          else if scaleDegrees notes tonic = [] then some "I"
          else
            match buildCounts (scaleDegrees notes tonic) with
            | [] => some "I"
            | hh :: tt => some (chordOptionPick (pyMaxSnd hh tt).1)) = _
        rw [if_neg hnotes, if_neg h, hbc]
      obtain ⟨hmem, hbound, l₁, l₂, hsplit, hlt⟩ := pyMaxSnd_spec hd tl
      have hlist : hd :: tl =
          (folKeys (scaleDegrees notes tonic)).map
            (fun k => (k, (scaleDegrees notes tonic).count k)) := by
        rw [← hbc, buildCounts_eq]
      have hres_mem : pyMaxSnd hd tl ∈
          (folKeys (scaleDegrees notes tonic)).map
            (fun k => (k, (scaleDegrees notes tonic).count k)) := by
        rw [← hlist]
        exact hmem
      obtain ⟨d, hdfol, hdres⟩ := List.mem_map.1 hres_mem
      have hdmem : d ∈ scaleDegrees notes tonic := mem_folKeys.1 hdfol
      have hpick : analyzeMelodySegment notes tonic = some (chordOptionPick d) := by
        rw [hana, ← hdres]
      refine ⟨⟨d, hdmem, hpick, ?_, ?_⟩, ?_⟩
      · intro e he
        have hentry : (e, (scaleDegrees notes tonic).count e) ∈ hd :: tl := by
          rw [hlist]
          exact List.mem_map.2 ⟨e, mem_folKeys.2 he, rfl⟩
        have hble := hbound _ hentry
        rw [← hdres] at hble
        exact hble
      · intro e he hcnt
        have hefol : e ∈ folKeys (scaleDegrees notes tonic) := mem_folKeys.2 he
        have hmapsplit : (folKeys (scaleDegrees notes tonic)).map
            (fun k => (k, (scaleDegrees notes tonic).count k)) =
              l₁ ++ pyMaxSnd hd tl :: l₂ := by
          rw [← hlist, hsplit]
        rw [List.map_eq_append_iff] at hmapsplit
        obtain ⟨ks₁, ks₂, hfol, hm1, hm2⟩ := hmapsplit
        cases ks₂ with
        | nil => simp at hm2
        | cons d0 ks₂' =>
            rw [List.map_cons] at hm2
            have hd0 : (d0, (scaleDegrees notes tonic).count d0) = pyMaxSnd hd tl :=
              (List.cons.inj hm2).1
            have hdd0 : d = d0 := congrArg Prod.fst (hdres.trans hd0.symm)
            rw [hfol] at hefol
            rcases List.mem_append.1 hefol with he1 | he2
            · have hentry : (e, (scaleDegrees notes tonic).count e) ∈ l₁ := by
                rw [← hm1]
                exact List.mem_map.2 ⟨e, he1, rfl⟩
              have hlt' := hlt _ hentry
              rw [← hdres] at hlt'
              have : (scaleDegrees notes tonic).count e <
                  (scaleDegrees notes tonic).count d := hlt'
              omega
            · rcases List.mem_cons.1 he2 with he2 | he2
              · rw [hdd0, he2]
              · have hpw := folKeys_pairwise (scaleDegrees notes tonic)
                rw [hfol] at hpw
                have hpw2 := (List.pairwise_append.1 hpw).2.1
                have hrel := (List.pairwise_cons.1 hpw2).1 e he2
                rw [hdd0]
                exact Nat.le_of_lt hrel
      · intro hall
        have hpickI : chordOptionPick d = "I" := by
          rcases hall d hdmem with h1 | h6
          · rw [h1]; rfl
          · rw [h6]; rfl
        rw [hpick, hpickI]

/-- C5 witness: the amended selection property instantiated on the
degree sequence `[2, 0]` in C major. -/
theorem claim_C5_witness :
    (∃ d, d ∈ scaleDegrees [some 2, some 0] 0 ∧
      analyzeMelodySegment [some 2, some 0] 0 = some (chordOptionPick d) ∧
      (∀ e ∈ scaleDegrees [some 2, some 0] 0,
        (scaleDegrees [some 2, some 0] 0).count e ≤
          (scaleDegrees [some 2, some 0] 0).count d) ∧
      (∀ e ∈ scaleDegrees [some 2, some 0] 0,
        (scaleDegrees [some 2, some 0] 0).count e =
            (scaleDegrees [some 2, some 0] 0).count d →
          firstIdx (scaleDegrees [some 2, some 0] 0) d ≤
            firstIdx (scaleDegrees [some 2, some 0] 0) e)) ∧
    ((∀ e ∈ scaleDegrees [some 2, some 0] 0, e = 1 ∨ e = 6) →
      analyzeMelodySegment [some 2, some 0] 0 = some "I") :=
  claim_C5 [some 2, some 0] 0 (by decide)

/-- C5 counterexample: a measure whose pitched notes have scale degrees
`[2, 0]` (both occurring once).  The claimed canonical-order tie-break
would pick degree 0 and label `I`; the code picks the first-encountered
degree 2 and labels `ii`. -/
theorem claim_C5_counterexample :
    analyzeMelodySegment [some 2, some 0] 0 = some "ii" ∧
      claimedChord [some 2, some 0] 0 = some "I" ∧
      ("ii" : String) ≠ "I" :=
  ⟨by decide, by decide, by decide⟩

/-! ## Claim theorems: C6, C7 -/

/-- C6 (corrected): a nonempty measure containing only rests does NOT get
a rest in the chords-only part: `analyze_melody_segment` returns `'I'`
for a rests-only element list, so the measure gets a full-measure tonic
chord; the rest-emitting branch is unreachable (it would require the
analyzer to return nothing on a nonempty list), and a measure with no
elements at all contributes an empty chord measure. -/
theorem claim_C6 (oracle : String → KeyK → Option (List Nat)) (elems : List MElem)
    (k : KeyK) (hrest : ∀ e ∈ elems, e = MElem.rest) (hne : elems ≠ []) :
    measureHCell oracle elems k =
      [.chordP "I" (transposeDown (createChordFromRoman oracle "I" k)) 4] ∧
    measureHCell oracle [] k = [] := by
  constructor
  · rw [measureHCell, if_neg hne]
    have hmapne : elems.map MElem.pc ≠ [] := by
      intro hmp
      exact hne (List.map_eq_nil_iff.1 hmp)
    have hdeg : scaleDegrees (elems.map MElem.pc) k.tonicPc = [] := by
      rw [scaleDegrees, List.filterMap_eq_nil_iff]
      intro o ho
      obtain ⟨e, he, rfl⟩ := List.mem_map.1 ho
      rw [hrest e he]
      rfl
    have hana : analyzeMelodySegment (elems.map MElem.pc) k.tonicPc = some "I" := by
      show (if elems.map MElem.pc = [] then none
        else if scaleDegrees (elems.map MElem.pc) k.tonicPc = [] then some "I"
        else
          match buildCounts (scaleDegrees (elems.map MElem.pc) k.tonicPc) with
          | [] => some "I"
          | hh :: tt => some (chordOptionPick (pyMaxSnd hh tt).1)) = some "I"
      rw [if_neg hmapne, if_pos hdeg]
    rw [hana]
  · rfl

/-- C6 witness: a one-rest measure in C major yields the tonic chord
cell, not a rest. -/
theorem claim_C6_witness :
    measureHCell (fun _ _ => none) [MElem.rest] ⟨0, true⟩ =
      [.chordP "I"
        (transposeDown (createChordFromRoman (fun _ _ => none) "I" ⟨0, true⟩)) 4] ∧
    measureHCell (fun _ _ => none) [] (⟨0, true⟩ : KeyK) = [] :=
  claim_C6 (fun _ _ => none) [MElem.rest] ⟨0, true⟩
    (by intro e he; cases List.mem_singleton.1 he; rfl) (by decide)

/-- C6 counterexample: for the rests-only measure `[rest]` in C major the
chords-only part receives a tonic chord cell, never a rest cell of any
duration — the claimed full-measure rest is not emitted. -/
theorem claim_C6_counterexample :
    measureHCell (fun _ _ => none) [MElem.rest] ⟨0, true⟩ =
      [.chordP "I" [-24, -20, -17] 4] ∧
    ∀ d : ℚ, measureHCell (fun _ _ => none) [MElem.rest] ⟨0, true⟩ ≠ [.restP d] := by
  have h1 : measureHCell (fun _ _ => none) [MElem.rest] ⟨0, true⟩ =
      [.chordP "I" [-24, -20, -17] 4] := rfl
  refine ⟨h1, fun d hcontra => ?_⟩
  rw [h1] at hcontra
  simp at hcontra

/-- C7 (confirmed): the harmonizer returns one chord measure per melody
measure, and when the external triad construction fails for the selected
label, `create_chord_from_roman` catches the failure and deterministically
emits the key's tonic triad (transposed like any other chord) instead of
propagating an error. -/
theorem claim_C7 (oracle : String → KeyK → Option (List Nat))
    (measures : List (List MElem)) (k : KeyK) :
    (harmonizeChordPart oracle measures k).length = measures.length ∧
    (∀ (elems : List MElem) (r : String), elems ≠ [] →
      analyzeMelodySegment (elems.map MElem.pc) k.tonicPc = some r →
      oracle r k = none →
      measureHCell oracle elems k =
        [.chordP r (transposeDown (tonicTriad k)) 4]) := by
  constructor
  · exact List.length_map _ _
  · intro elems r hne hana hor
    have hcc : createChordFromRoman oracle r k = tonicTriad k := by
      show (match oracle r k with
        | some ps => ps
        | none => tonicTriad k) = tonicTriad k
      rw [hor]
    rw [measureHCell, if_neg hne, hana]
    show [HCell.chordP r (transposeDown (createChordFromRoman oracle r k)) 4] = _
    rw [hcc]

/-- C7 witness: an always-failing oracle on a one-note C-major melody
still produces a (tonic-triad) chord measure. -/
theorem claim_C7_witness :
    (harmonizeChordPart (fun _ _ => none) [[MElem.note 0]] ⟨0, true⟩).length =
      ([[MElem.note 0]] : List (List MElem)).length ∧
    measureHCell (fun _ _ => none) [MElem.note 0] ⟨0, true⟩ =
      [.chordP "I" (transposeDown (tonicTriad ⟨0, true⟩)) 4] := by
  have h := claim_C7 (fun _ _ => none) [[MElem.note 0]] ⟨0, true⟩
  exact ⟨h.1, h.2 [MElem.note 0] "I" (by decide) (by decide) rfl⟩

/-! ## Claim theorems: C9 -/

theorem searchML_patQ_lLine (cs : List Char) :
    searchML patQ (lLine ++ cs) = searchML patQ cs := by
  show searchML patQ ('L' :: ':' :: ' ' :: '1' :: '/' :: '8' :: '\n' :: cs) = _
  simp [searchML, searchAfterNl, patQ]

/-- C9 (corrected): the decoder preprocessing injects the base-unit line
`L: 1/8` if and only if no line of the (stripped) text starts with `L:`
followed by whitespace and exactly `1/8` — a base-unit directive with any
OTHER value (e.g. `L:1/4`) does not suppress the injection, so such a
text ends up with two base-unit directives; the tempo line `Q:1/4=<tempo>`
is injected if and only if no line starts with `Q:`; both happen before
parsing. -/
theorem claim_C9 (cs : List Char) (tempo : Nat) :
    injectDirectives cs tempo =
      (if searchML patQ cs then [] else qLine tempo) ++
      ((if searchML patL18 cs then [] else lLine) ++ cs) := by
  show (if searchML patQ (if searchML patL18 cs then cs else lLine ++ cs)
      then (if searchML patL18 cs then cs else lLine ++ cs)
      else qLine tempo ++ (if searchML patL18 cs then cs else lLine ++ cs)) = _
  cases hl : searchML patL18 cs
  · simp only [Bool.false_eq_true, if_false]
    rw [searchML_patQ_lLine]
    cases hq : searchML patQ cs <;> simp
  · simp only [if_true]
    cases hq : searchML patQ cs <;> simp

/-- C9 counterexample: the text `L:1/4\nC` carries a base-unit directive,
yet the preprocessing still injects `L: 1/8` (its regex only recognizes
the value `1/8`), unlike the claimed inject-iff-absent behavior. -/
theorem claim_C9_counterexample :
    searchML patAnyL "L:1/4\nC".data = true ∧
    injectDirectives "L:1/4\nC".data 120 = "Q:1/4=120\nL: 1/8\nL:1/4\nC".data ∧
    claimedInject "L:1/4\nC".data 120 = "Q:1/4=120\nL:1/4\nC".data ∧
    injectDirectives "L:1/4\nC".data 120 ≠ claimedInject "L:1/4\nC".data 120 :=
  ⟨by decide, by decide, by decide, by decide⟩

/-! ## Decimal numeral lemmas -/

theorem digitVal_digitChar {n : Nat} (h : n < 10) :
    digitVal (Nat.digitChar n) = n := by
  interval_cases n <;> rfl

theorem isDigit_digitChar {n : Nat} (h : n < 10) :
    (Nat.digitChar n).isDigit = true := by
  interval_cases n <;> rfl

theorem natDecimalAux_small {f n : Nat} (h : n < 10) :
    natDecimalAux f n = [Nat.digitChar n] := by
  cases f with
  | zero => rfl
  | succ g => rw [natDecimalAux, if_pos h]

theorem natDecimal_all_digit :
    ∀ (f n : Nat), n ≤ f →
      (∀ c ∈ natDecimalAux f n, c.isDigit = true) ∧ natDecimalAux f n ≠ [] := by
  intro f
  induction f with
  | zero =>
      intro n hn
      have : n = 0 := Nat.le_zero.1 hn
      subst this
      exact ⟨fun c hc => by
        rw [natDecimalAux_small (by omega)] at hc
        rw [List.mem_singleton.1 hc]
        exact isDigit_digitChar (by omega), by rw [natDecimalAux_small (by omega)]; simp⟩
  | succ g ih =>
      intro n hn
      by_cases hsmall : n < 10
      · rw [natDecimalAux_small hsmall]
        exact ⟨fun c hc => by
          rw [List.mem_singleton.1 hc]
          exact isDigit_digitChar hsmall, by simp⟩
      · rw [natDecimalAux, if_neg hsmall]
        have hrec := ih (n / 10) (by omega)
        refine ⟨fun c hc => ?_, by simp⟩
        rcases List.mem_append.1 hc with hc | hc
        · exact hrec.1 c hc
        · rw [List.mem_singleton.1 hc]
          exact isDigit_digitChar (Nat.mod_lt _ (by omega))

theorem foldl_natDecimalAux :
    ∀ (f n acc : Nat), n ≤ f →
      (natDecimalAux f n).foldl (fun a c => a * 10 + digitVal c) acc =
        acc * 10 ^ (natDecimalAux f n).length + n := by
  intro f
  induction f with
  | zero =>
      intro n acc hn
      have : n = 0 := Nat.le_zero.1 hn
      subst this
      rw [natDecimalAux_small (by omega)]
      simp [digitVal_digitChar]
  | succ g ih =>
      intro n acc hn
      by_cases hsmall : n < 10
      · rw [natDecimalAux_small hsmall]
        simp [digitVal_digitChar hsmall]
      · rw [natDecimalAux, if_neg hsmall]
        rw [List.foldl_append]
        rw [ih (n / 10) acc (by omega)]
        rw [List.length_append]
        simp only [List.foldl_cons, List.foldl_nil, List.length_singleton]
        rw [digitVal_digitChar (Nat.mod_lt _ (by omega)), pow_succ, ← Nat.mul_assoc]
        generalize acc * 10 ^ (natDecimalAux g (n / 10)).length = B
        omega

theorem parseNatList_natDecimal (n : Nat) : parseNatList (natDecimal n) = some n := by
  have hall := natDecimal_all_digit n n le_rfl
  rw [natDecimal, parseNatList]
  rw [if_pos ⟨hall.2, by rw [List.all_eq_true]; exact hall.1⟩]
  rw [foldl_natDecimalAux n n 0 le_rfl]
  simp

theorem natDecimal_ne_nil (n : Nat) : natDecimal n ≠ [] :=
  (natDecimal_all_digit n n le_rfl).2

theorem natDecimal_digits (n : Nat) : ∀ c ∈ natDecimal n, c.isDigit = true :=
  (natDecimal_all_digit n n le_rfl).1

/-! ## takeWhile / dropWhile helpers -/

theorem takeWhile_append_all {α : Type} {p : α → Bool} :
    ∀ (l r : List α), (∀ c ∈ l, p c = true) →
      (l ++ r).takeWhile p = l ++ r.takeWhile p ∧
        (l ++ r).dropWhile p = r.dropWhile p := by
  intro l
  induction l with
  | nil => intro r _; exact ⟨rfl, rfl⟩
  | cons c l ih =>
      intro r hall
      have hc : p c = true := hall c (List.mem_cons_self _ _)
      have hrec := ih r (fun x hx => hall x (List.mem_cons_of_mem _ hx))
      constructor
      · rw [List.cons_append, List.takeWhile_cons, hc, if_pos rfl, hrec.1, List.cons_append]
      · rw [List.cons_append, List.dropWhile_cons, hc, if_pos rfl, hrec.2]

theorem takeWhile_cons_neg {α : Type} {p : α → Bool} (c : α) (l : List α)
    (hc : p c = false) :
    (c :: l).takeWhile p = [] ∧ (c :: l).dropWhile p = c :: l := by
  constructor
  · rw [List.takeWhile_cons, hc]
    simp
  · rw [List.dropWhile_cons, hc]
    simp

/-! ## Suffix evaluation lemmas -/

theorem parseSuffTok_nil : parseSuffTok [] = some 1 := rfl

theorem parseSuffTok_digits (n : Nat) :
    parseSuffTok (natDecimal n) = some (n : ℚ) := by
  rw [parseSuffTok]
  have hall : ∀ c ∈ natDecimal n, Char.isDigit c = true := natDecimal_digits n
  have htw := takeWhile_append_all (natDecimal n) [] hall
  rw [List.append_nil] at htw
  rw [htw.1, htw.2]
  simp only [List.takeWhile_nil, List.dropWhile_nil, List.append_nil]
  rw [parseNatList_natDecimal]

theorem parseSuffTok_digits_over4 (n : Nat) :
    parseSuffTok (natDecimal n ++ ['/', '4']) = some ((n : ℚ) / 4) := by
  rw [parseSuffTok]
  have htw := takeWhile_append_all (natDecimal n) ['/', '4'] (natDecimal_digits n)
  have hslash := takeWhile_cons_neg (p := Char.isDigit) '/' ['4'] (by rfl)
  rw [htw.1, htw.2, hslash.1, hslash.2, List.append_nil]
  rw [parseNatList_natDecimal]
  show (match parseNatList ['4'] with
    | some m => if m ≠ 0 then some ((n : ℚ) / (m : ℚ)) else none
    | none => none) = some ((n : ℚ) / 4)
  have h4 : parseNatList ['4'] = some 4 := by decide
  rw [h4]
  norm_num

theorem parseSuffTok_half : parseSuffTok ['/', '2'] = some (1 / 2 : ℚ) := by
  have h0 : parseSuffTok ['/', '2'] = some ((1 : ℚ) / ((2 : Nat) : ℚ)) := rfl
  rw [h0]
  norm_num

theorem parseSuffTok_quarter : parseSuffTok ['/', '4'] = some (1 / 4 : ℚ) := by
  have h0 : parseSuffTok ['/', '4'] = some ((1 : ℚ) / ((4 : Nat) : ℚ)) := rfl
  rw [h0]
  norm_num

theorem parseSuffTok_threeHalves : parseSuffTok ['3', '/', '2'] = some (3 / 2 : ℚ) := by
  have h0 : parseSuffTok ['3', '/', '2'] = some (((3 : Nat) : ℚ) / ((2 : Nat) : ℚ)) := rfl
  rw [h0]
  norm_num

theorem parseSuffTok_threeQuarters :
    parseSuffTok ['3', '/', '4'] = some (3 / 4 : ℚ) := by
  have h0 : parseSuffTok ['3', '/', '4'] = some (((3 : Nat) : ℚ) / ((4 : Nat) : ℚ)) := rfl
  rw [h0]
  norm_num

/-! ## Claim theorems: C8 -/

theorem fourTimes_int_cast {d : ℚ} (hint : (4 * d).den = 1) :
    ((4 * d).num : ℚ) = 4 * d := by
  conv_rhs => rw [← Rat.num_div_den (4 * d)]
  rw [hint]
  simp

theorem tol_exact (m : Int) {d c : ℚ} (hc : c = (m : ℚ) / 4)
    (htol : |d - c| < 1 / 100) (hint : (4 * d).den = 1) : d = c := by
  have h4d : ((4 * d).num : ℚ) = 4 * d := fourTimes_int_cast hint
  have hdk : d = ((4 * d).num : ℚ) / 4 := by linarith
  rcases abs_lt.1 htol with ⟨hl, hr⟩
  rw [hdk, hc] at hl hr ⊢
  have hkl : (m : ℚ) - 1 < (4 * d).num := by linarith
  have hkr : ((4 * d).num : ℚ) < m + 1 := by linarith
  have h1 : m - 1 < (4 * d).num := by exact_mod_cast hkl
  have h2 : (4 * d).num < m + 1 := by exact_mod_cast hkr
  have hke : (4 * d).num = m := by omega
  rw [hke]

theorem durSuffix_value (d : ℚ) (hd : 0 < d) :
    ∃ v : ℚ, parseSuffTok (durSuffix d) = some v ∧ |v - d| < 1 / 4 ∧
      ((4 * d).den = 1 → v = d) := by
  by_cases h1 : d = 1
  · refine ⟨1, ?_, ?_, fun _ => h1.symm⟩
    · rw [durSuffix, if_pos h1]
      exact parseSuffTok_nil
    · rw [h1]
      norm_num
  by_cases hden : d.den = 1
  · have hnum : 0 < d.num := Rat.num_pos.2 hd
    have hint : ((d.num : ℤ) : ℚ) = d := by
      conv_rhs => rw [← Rat.num_div_den d]
      rw [hden]
      simp
    have hd_eq : ((d.num.toNat : Nat) : ℚ) = d := by
      rw [← hint]
      exact_mod_cast congrArg (fun z : ℤ => (z : ℚ)) (Int.toNat_of_nonneg (le_of_lt hnum))
    refine ⟨d, ?_, by norm_num, fun _ => rfl⟩
    rw [durSuffix, if_neg h1, if_pos hden, intDecimal,
      if_neg (not_lt.2 (le_of_lt hnum)), parseSuffTok_digits, hd_eq]
  by_cases h12 : |d - 1 / 2| < 1 / 100
  · refine ⟨1 / 2, ?_, ?_, fun hint => (tol_exact 2 (by norm_num) h12 hint).symm⟩
    · rw [durSuffix, if_neg h1, if_neg hden, if_pos h12]
      exact parseSuffTok_half
    · rw [abs_sub_comm] at h12
      exact lt_trans h12 (by norm_num)
  by_cases h14 : |d - 1 / 4| < 1 / 100
  · refine ⟨1 / 4, ?_, ?_, fun hint => (tol_exact 1 (by norm_num) h14 hint).symm⟩
    · rw [durSuffix, if_neg h1, if_neg hden, if_neg h12, if_pos h14]
      exact parseSuffTok_quarter
    · rw [abs_sub_comm] at h14
      exact lt_trans h14 (by norm_num)
  by_cases h32 : |d - 3 / 2| < 1 / 100
  · refine ⟨3 / 2, ?_, ?_, fun hint => (tol_exact 6 (by norm_num) h32 hint).symm⟩
    · rw [durSuffix, if_neg h1, if_neg hden, if_neg h12, if_neg h14, if_pos h32]
      exact parseSuffTok_threeHalves
    · rw [abs_sub_comm] at h32
      exact lt_trans h32 (by norm_num)
  by_cases h34 : |d - 3 / 4| < 1 / 100
  · refine ⟨3 / 4, ?_, ?_, fun hint => (tol_exact 3 (by norm_num) h34 hint).symm⟩
    · rw [durSuffix, if_neg h1, if_neg hden, if_neg h12, if_neg h14, if_neg h32, if_pos h34]
      exact parseSuffTok_threeQuarters
    · rw [abs_sub_comm] at h34
      exact lt_trans h34 (by norm_num)
  · have hnn : (0 : ℚ) ≤ d * 4 := by positivity
    have hfl_nn : 0 ≤ ⌊d * 4⌋ := Int.floor_nonneg.2 hnn
    have hncast : ((⌊d * 4⌋.toNat : Nat) : ℤ) = ⌊d * 4⌋ := Int.toNat_of_nonneg hfl_nn
    have hid : intDecimal (pyint (d * 4)) = natDecimal ⌊d * 4⌋.toNat := by
      rw [pyint, if_neg (not_lt.2 hnn), intDecimal, if_neg (not_lt.2 hfl_nn)]
    have hcast : ((⌊d * 4⌋.toNat : Nat) : ℚ) = ((⌊d * 4⌋ : ℤ) : ℚ) := by
      exact_mod_cast congrArg (fun z : ℤ => (z : ℚ)) hncast
    refine ⟨(⌊d * 4⌋.toNat : ℚ) / 4, ?_, ?_, ?_⟩
    · rw [durSuffix, if_neg h1, if_neg hden, if_neg h12, if_neg h14, if_neg h32,
        if_neg h34, hid]
      exact parseSuffTok_digits_over4 _
    · have hfl1 : ((⌊d * 4⌋ : ℤ) : ℚ) ≤ d * 4 := Int.floor_le _
      have hfl2 : d * 4 < ((⌊d * 4⌋ : ℤ) : ℚ) + 1 := Int.lt_floor_add_one _
      rw [abs_lt]
      constructor <;> linarith [hfl1, hfl2, hcast]
    · intro hint
      have h4d : ((4 * d).num : ℚ) = 4 * d := fourTimes_int_cast hint
      have hfe : ⌊d * 4⌋ = (4 * d).num := by
        rw [mul_comm d 4, ← h4d]
        exact Int.floor_intCast _
      rw [hcast, hfe, h4d]
      linarith

/-- C8 (corrected): the duration suffix denotes the exact ratio whenever
`4 * (duration / base_unit)` is an integer (the empty suffix at 1, a bare
integer at whole ratios, and the `/2`, `/4`, `3/2`, `3/4` and `k/4`
forms); ratios within `0.01` of `0.5`, `0.25`, `1.5`, `0.75` snap to
those values; every other ratio is TRUNCATED (not rounded to nearest) to
`⌊4·ratio⌋/4` — quarter-unit resolution, there is no `/8` case — and the
denoted value is always within `1/4` of the true ratio. -/
theorem claim_C8 (d : ℚ) (hd : 0 < d) :
    ∃ v : ℚ, parseSuffTok (durSuffix d) = some v ∧ |v - d| < 1 / 4 ∧
      ((4 * d).den = 1 → v = d) :=
  durSuffix_value d hd

/-- C8 witness: the amended suffix property instantiated at the ratio
`3/8`. -/
theorem claim_C8_witness :
    ∃ v : ℚ, parseSuffTok (durSuffix (3 / 8)) = some v ∧ |v - 3 / 8| < 1 / 4 ∧
      ((4 * (3 / 8) : ℚ).den = 1 → v = 3 / 8) :=
  claim_C8 (3 / 8) (by norm_num)

/-- C8 counterexample: the ratio `1/8` is an exact binary fraction, so
the claim mandates the suffix `/8`; the encoder instead emits `0/4`,
which even denotes duration `0`. -/
theorem claim_C8_counterexample :
    durSuffix (1 / 8 : ℚ) = ['0', '/', '4'] ∧
      (['0', '/', '4'] : List Char) ≠ ['/', '8'] ∧
      parseSuffTok ['0', '/', '4'] = some 0 := by
  refine ⟨?_, by decide, ?_⟩
  · norm_num [durSuffix, abs_lt, pyint, intDecimal, natDecimal, natDecimalAux]
    decide
  · have h0 : parseSuffTok ['0', '/', '4'] = some (((0 : Nat) : ℚ) / ((4 : Nat) : ℚ)) := rfl
    rw [h0]
    norm_num

/-! ## C1 helper lemmas: character classes -/

theorem pitchChar_ne {c x : Char} (h : isPitchChar c = true)
    (hx : isPitchChar x = false) : c ≠ x := by
  intro he
  rw [he, hx] at h
  exact absurd h (by simp)

theorem pitchChar_cases {c : Char} (h : isPitchChar c = true) :
    c = '^' ∨ c = '_' ∨ c = '\'' ∨ c = ',' ∨ c = 'C' ∨ c = 'D' ∨ c = 'E' ∨ c = 'F' ∨
      c = 'G' ∨ c = 'A' ∨ c = 'B' ∨ c = 'c' ∨ c = 'd' ∨ c = 'e' ∨ c = 'f' ∨ c = 'g' ∨
      c = 'a' ∨ c = 'b' := by
  simp only [isPitchChar, Bool.or_eq_true, beq_iff_eq] at h
  tauto

theorem pitchChar_not_digit {c : Char} (h : isPitchChar c = true) :
    c.isDigit = false := by
  rcases pitchChar_cases h with
    rfl | rfl | rfl | rfl | rfl | rfl | rfl | rfl | rfl | rfl | rfl | rfl | rfl | rfl |
      rfl | rfl | rfl | rfl <;> rfl

theorem suffChar_not_pitchChar {c : Char} (h : c.isDigit = true ∨ c = '/') :
    isPitchChar c = false := by
  cases hpc : isPitchChar c
  · rfl
  · rcases h with h | rfl
    · rw [pitchChar_not_digit hpc] at h
      exact absurd h (by simp)
    · exact absurd hpc (by decide)

theorem digit_ne {c x : Char} (h : c.isDigit = true) (hx : x.isDigit = false) :
    c ≠ x := by
  intro he
  rw [he, hx] at h
  exact absurd h (by simp)

theorem suffChar_ne {c x : Char} (h : c.isDigit = true ∨ c = '/')
    (hx : x.isDigit = false) (hx2 : x ≠ '/') : c ≠ x := by
  rcases h with h | rfl
  · exact digit_ne h hx
  · exact fun he => hx2 he.symm

/-- The characters of a duration suffix for a positive duration are
digits or the slash. -/
theorem durSuffix_chars {d : ℚ} (hd : 0 < d) :
    ∀ c ∈ durSuffix d, c.isDigit = true ∨ c = '/' := by
  rw [durSuffix]
  by_cases h1 : d = 1
  · rw [if_pos h1]
    intro c hc
    cases hc
  rw [if_neg h1]
  by_cases hden : d.den = 1
  · rw [if_pos hden]
    intro c hc
    rw [intDecimal, if_neg (not_lt.2 (le_of_lt (Rat.num_pos.2 hd)))] at hc
    exact .inl (natDecimal_digits _ c hc)
  rw [if_neg hden]
  by_cases h12 : |d - 1 / 2| < 1 / 100
  · rw [if_pos h12]
    intro c hc
    fin_cases hc <;> decide
  rw [if_neg h12]
  by_cases h14 : |d - 1 / 4| < 1 / 100
  · rw [if_pos h14]
    intro c hc
    fin_cases hc <;> decide
  rw [if_neg h14]
  by_cases h32 : |d - 3 / 2| < 1 / 100
  · rw [if_pos h32]
    intro c hc
    fin_cases hc <;> decide
  rw [if_neg h32]
  by_cases h34 : |d - 3 / 4| < 1 / 100
  · rw [if_pos h34]
    intro c hc
    fin_cases hc <;> decide
  · rw [if_neg h34]
    intro c hc
    have hnn : (0 : ℚ) ≤ d * 4 := by positivity
    rw [pyint, if_neg (not_lt.2 hnn), intDecimal,
      if_neg (not_lt.2 (Int.floor_nonneg.2 hnn))] at hc
    rcases List.mem_append.1 hc with hc | hc
    · exact .inl (natDecimal_digits _ c hc)
    · fin_cases hc <;> decide

theorem midiNoteToAbc_all_pitch : ∀ p : Fin 128,
    (midiNoteToAbc p).all isPitchChar = true := by decide

theorem midiNoteToAbc_ne_nil : ∀ p : Fin 128, midiNoteToAbc p ≠ [] := by decide

theorem parsePitchTok_midiNoteToAbc : ∀ p : Fin 128,
    parsePitchTok (midiNoteToAbc p) = some (p : Nat) := by decide

/-! ## C1 helper lemmas: line splitting -/

theorem splitOnChar_ne_nil (sep : Char) (cs : List Char) :
    splitOnChar sep cs ≠ [] := by
  induction cs with
  | nil => simp [splitOnChar]
  | cons c t ih =>
      cases hsp : splitOnChar sep t with
      | nil => simp [splitOnChar, hsp]
      | cons h r =>
          by_cases hc : (c == sep) = true
          · simp [splitOnChar, hsp, hc]
          · simp [splitOnChar, hsp, hc]

theorem splitOnChar_no_sep {sep : Char} {l : List Char} (h : sep ∉ l) :
    splitOnChar sep l = [l] := by
  induction l with
  | nil => rfl
  | cons c t ih =>
      have ih' := ih (fun hm => h (List.mem_cons_of_mem _ hm))
      have hne : (c == sep) = false := by
        simp only [beq_eq_false_iff_ne]
        exact fun he => h (he ▸ List.mem_cons_self _ _)
      simp [splitOnChar, ih', hne]

theorem splitOnChar_sep_append {sep : Char} {l : List Char} (h : sep ∉ l)
    (rest : List Char) :
    splitOnChar sep (l ++ sep :: rest) = l :: splitOnChar sep rest := by
  induction l with
  | nil =>
      show splitOnChar sep (sep :: rest) = [] :: splitOnChar sep rest
      cases hsp : splitOnChar sep rest with
      | nil => exact absurd hsp (splitOnChar_ne_nil _ _)
      | cons hh r => simp [splitOnChar, hsp]
  | cons c t ih =>
      have ih' := ih (fun hm => h (List.mem_cons_of_mem _ hm))
      have hne : (c == sep) = false := by
        simp only [beq_eq_false_iff_ne]
        exact fun he => h (he ▸ List.mem_cons_self _ _)
      show splitOnChar sep (c :: (t ++ sep :: rest)) = (c :: t) :: splitOnChar sep rest
      simp [splitOnChar, ih', hne]

theorem splitOnChar_joinNl :
    ∀ (lines : List (List Char)), lines ≠ [] → (∀ l ∈ lines, '\n' ∉ l) →
      splitOnChar '\n' (joinNl lines) = lines := by
  intro lines
  induction lines with
  | nil => intro h; exact absurd rfl h
  | cons l ls ih =>
      intro _ hno
      cases ls with
      | nil =>
          rw [joinNl]
          exact splitOnChar_no_sep (hno l (List.mem_cons_self _ _))
      | cons l₂ ls₂ =>
          rw [joinNl, splitOnChar_sep_append (hno l (List.mem_cons_self _ _)),
            ih (List.cons_ne_nil _ _) (fun x hx => hno x (List.mem_cons_of_mem _ hx))]
          exact List.cons_ne_nil _ _

/-! ## C1 helper lemmas: header payloads -/

theorem noNl_natDecimal (n : Nat) : '\n' ∉ natDecimal n := fun h =>
  absurd (natDecimal_digits n _ h) (by decide)

theorem parseBaseUnit_14 : parseBaseUnit ['1', '/', '4'] = some 1 := by
  have h0 : parseBaseUnit ['1', '/', '4'] = some (4 * ((1 : Nat) : ℚ) / ((4 : Nat) : ℚ)) := rfl
  rw [h0]
  norm_num

theorem parseTempoPayload_enc (tempo : Nat) :
    parseTempoPayload ('1' :: '/' :: '4' :: '=' :: natDecimal tempo) = some tempo := by
  rw [parseTempoPayload]
  have hcon : ('1' :: '/' :: '4' :: '=' :: natDecimal tempo).contains '=' = true := rfl
  rw [if_pos hcon]
  have hdw : ('1' :: '/' :: '4' :: '=' :: natDecimal tempo).dropWhile (· ≠ '=') =
      '=' :: natDecimal tempo := by
    rw [List.dropWhile_cons, if_pos (by decide), List.dropWhile_cons, if_pos (by decide),
      List.dropWhile_cons, if_pos (by decide), List.dropWhile_cons, if_neg (by decide)]
  rw [hdw, List.drop_one, List.tail_cons, parseNatList_natDecimal]

theorem parseTsPayload_enc (tsn tsd : Nat) :
    parseTsPayload (natDecimal tsn ++ '/' :: natDecimal tsd) = some (tsn, tsd) := by
  rw [parseTsPayload]
  have htw := takeWhile_append_all (natDecimal tsn) ('/' :: natDecimal tsd)
    (natDecimal_digits tsn)
  have hsl := takeWhile_cons_neg (p := Char.isDigit) '/' (natDecimal tsd) (by rfl)
  rw [htw.1, htw.2, hsl.1, hsl.2, List.append_nil, parseNatList_natDecimal]
  show (match parseNatList (natDecimal tsd) with
    | some m => some (tsn, m)
    | none => none) = some (tsn, tsd)
  rw [parseNatList_natDecimal]

/-! ## C1 helper lemmas: per-line decoding of the header -/

theorem decodeLine_X (st : DecState) : decodeLine st ['X', ':', '1'] = .ok st := rfl

theorem decodeLine_T (st : DecState) :
    decodeLine st ['T', ':', 'C', 'o', 'n', 'v', 'e', 'r', 't', 'e', 'd', ' ', 'f',
      'r', 'o', 'm', ' ', 'M', 'I', 'D', 'I'] = .ok st := rfl

theorem decodeLine_Q (st : DecState) (tempo : Nat) :
    decodeLine st ('Q' :: ':' :: '1' :: '/' :: '4' :: '=' :: natDecimal tempo) =
      .ok { st with tempo := some tempo } := by
  have h0 : decodeLine st ('Q' :: ':' :: '1' :: '/' :: '4' :: '=' :: natDecimal tempo) =
      .ok { st with tempo :=
        ((parseTempoPayload ('1' :: '/' :: '4' :: '=' :: natDecimal tempo)).orElse
          (fun _ => st.tempo)) } := rfl
  rw [h0, parseTempoPayload_enc]
  rfl

theorem decodeLine_M (st : DecState) (tsn tsd : Nat) :
    decodeLine st ('M' :: ':' :: (natDecimal tsn ++ '/' :: natDecimal tsd)) =
      .ok { st with ts := some (tsn, tsd) } := by
  have h0 : decodeLine st ('M' :: ':' :: (natDecimal tsn ++ '/' :: natDecimal tsd)) =
      .ok { st with ts :=
        ((parseTsPayload (natDecimal tsn ++ '/' :: natDecimal tsd)).orElse
          (fun _ => st.ts)) } := rfl
  rw [h0, parseTsPayload_enc]
  rfl

theorem decodeLine_L (st : DecState) :
    decodeLine st ['L', ':', '1', '/', '4'] = .ok { st with base := some 1 } := by
  have h0 : decodeLine st ['L', ':', '1', '/', '4'] =
      .ok { st with base := ((parseBaseUnit ['1', '/', '4']).orElse (fun _ => st.base)) } := rfl
  rw [h0, parseBaseUnit_14]
  rfl

theorem decodeLine_K (st : DecState) : decodeLine st ['K', ':', 'C'] = .ok st := rfl

theorem decodeLine_empty (st : DecState) : decodeLine st [] = .ok st := rfl

theorem decodeLine_bar (st : DecState) : decodeLine st ['|'] = .ok st := by
  have h0 : decodeLine st ['|'] = .ok { st with notes := st.notes ++ [] } := rfl
  rw [h0, List.append_nil]

/-! ## C1 helper lemmas: line-loop plumbing -/

theorem lineLoop_cons_ok {st st' : DecState} {l : List Char} (ls : List (List Char))
    (h : decodeLine st l = .ok st') : lineLoop (l :: ls) st = lineLoop ls st' := by
  rw [lineLoop, h]

theorem lineLoop_append {xs : List (List Char)} {st st' : DecState}
    (ys : List (List Char)) (h : lineLoop xs st = .ok st') :
    lineLoop (xs ++ ys) st = lineLoop ys st' := by
  induction xs generalizing st with
  | nil =>
      rw [lineLoop] at h
      cases h
      rfl
  | cons l ls ih =>
      rw [List.cons_append, lineLoop]
      rw [lineLoop] at h
      cases hdl : decodeLine st l with
      | ok st1 =>
          rw [hdl] at h
          exact ih h
      | error e =>
          rw [hdl] at h
          cases h

/-! ## C1 helper lemmas: decoding one encoded note line -/

theorem isDirectiveLine_body {pp ss : List Char} (hne : pp ≠ [])
    (hall : ∀ c ∈ pp, isPitchChar c = true)
    (hss : ∀ c ∈ ss, c.isDigit = true ∨ c = '/') :
    isDirectiveLine (pp ++ ss) = false := by
  cases pp with
  | nil => exact absurd rfl hne
  | cons a t =>
      rw [List.cons_append]
      cases hts : t ++ ss with
      | nil => rfl
      | cons b r =>
          have hb : b ≠ ':' := by
            have hbm : b ∈ t ++ ss := by
              rw [hts]
              exact List.mem_cons_self _ _
            rcases List.mem_append.1 hbm with hbm | hbm
            · exact pitchChar_ne (hall b (List.mem_cons_of_mem _ hbm)) (by decide)
            · exact suffChar_ne (hss b hbm) (by decide) (by decide)
          show (a.isAlpha && (b == ':')) = false
          rw [beq_eq_false_iff_ne.2 hb, Bool.and_false]

theorem durSuffix_split (d : ℚ) (hd : 0 < d) :
    (durSuffix d).takeWhile isPitchChar = [] ∧
      (durSuffix d).dropWhile isPitchChar = durSuffix d := by
  cases hds : durSuffix d with
  | nil => exact ⟨rfl, rfl⟩
  | cons s0 r =>
      have h0 : isPitchChar s0 = false :=
        suffChar_not_pitchChar (durSuffix_chars hd s0 (by
          rw [hds]
          exact List.mem_cons_self _ _))
      exact takeWhile_cons_neg s0 r h0

theorem parseNoteTok_encode (p : Nat) (hp : p < 128) (d : ℚ) (hd : 0 < d) :
    ∃ v : ℚ, parseNoteTok 1 (midiNoteToAbc p ++ durSuffix d) = some (p, v * 1) ∧
      |v - d| < 1 / 4 ∧ ((4 * d).den = 1 → v = d) := by
  obtain ⟨v, hpv, hvd, hvex⟩ := durSuffix_value d hd
  refine ⟨v, ?_, hvd, hvex⟩
  have hall : ∀ c ∈ midiNoteToAbc p, isPitchChar c = true :=
    List.all_eq_true.1 (midiNoteToAbc_all_pitch ⟨p, hp⟩)
  have hpt : parsePitchTok (midiNoteToAbc p) = some p :=
    parsePitchTok_midiNoteToAbc ⟨p, hp⟩
  have htw := takeWhile_append_all (midiNoteToAbc p) (durSuffix d) hall
  have hsuf := durSuffix_split d hd
  have ht1 : (midiNoteToAbc p ++ durSuffix d).takeWhile isPitchChar = midiNoteToAbc p := by
    rw [htw.1, hsuf.1, List.append_nil]
  have ht2 : (midiNoteToAbc p ++ durSuffix d).dropWhile isPitchChar = durSuffix d := by
    rw [htw.2, hsuf.2]
  simp only [parseNoteTok]
  rw [ht1, ht2, hpt, hpv]

theorem parseTok_noteLine (p : Nat) (hp : p < 128) (d : ℚ) (hd : 0 < d) :
    ∃ v : ℚ, parseTok 1 (midiNoteToAbc p ++ durSuffix d) = .ok [(p, v * 1)] ∧
      |v - d| < 1 / 4 ∧ ((4 * d).den = 1 → v = d) := by
  obtain ⟨v, h1, h2, h3⟩ := parseNoteTok_encode p hp d hd
  refine ⟨v, ?_, h2, h3⟩
  have hall : ∀ c ∈ midiNoteToAbc p, isPitchChar c = true :=
    List.all_eq_true.1 (midiNoteToAbc_all_pitch ⟨p, hp⟩)
  have hnn : midiNoteToAbc p ≠ [] := midiNoteToAbc_ne_nil ⟨p, hp⟩
  obtain ⟨a, t, hpp⟩ : ∃ a t, midiNoteToAbc p = a :: t := by
    cases hc : midiNoteToAbc p with
    | nil => exact absurd hc hnn
    | cons a t => exact ⟨a, t, rfl⟩
  have ha : isPitchChar a = true := hall a (by
    rw [hpp]
    exact List.mem_cons_self _ _)
  have hbar : ¬(midiNoteToAbc p ++ durSuffix d = ['|'] ∨
      midiNoteToAbc p ++ durSuffix d = [':', '|']) := by
    rw [hpp, List.cons_append]
    rintro (hc | hc)
    · exact pitchChar_ne ha (by decide) (List.cons.inj hc).1
    · exact pitchChar_ne ha (by decide) (List.cons.inj hc).1
  have hz : (a == 'z') = false := beq_eq_false_iff_ne.2 (pitchChar_ne ha (by decide))
  have hbk : (a == '[') = false := beq_eq_false_iff_ne.2 (pitchChar_ne ha (by decide))
  rw [parseTok.eq_def, if_neg hbar, hpp, List.cons_append]
  simp only [hz, hbk, Bool.false_eq_true, if_false]
  rw [← List.cons_append, ← hpp, h1]

theorem decodeLine_noteLine (st : DecState) (hbase : st.base = some 1)
    (p : Nat) (hp : p < 128) (d : ℚ) (hd : 0 < d) :
    ∃ v : ℚ, decodeLine st (midiNoteToAbc p ++ durSuffix d) =
        .ok { st with notes := st.notes ++ [(p, v)] } ∧
      |v - d| < 1 / 4 ∧ ((4 * d).den = 1 → v = d) := by
  obtain ⟨v, h1, h2, h3⟩ := parseTok_noteLine p hp d hd
  refine ⟨v, ?_, h2, h3⟩
  have hall : ∀ c ∈ midiNoteToAbc p, isPitchChar c = true :=
    List.all_eq_true.1 (midiNoteToAbc_all_pitch ⟨p, hp⟩)
  have hnn : midiNoteToAbc p ≠ [] := midiNoteToAbc_ne_nil ⟨p, hp⟩
  have hlnn : midiNoteToAbc p ++ durSuffix d ≠ [] := by
    intro hc
    exact hnn (List.append_eq_nil.1 hc).1
  have hdir : isDirectiveLine (midiNoteToAbc p ++ durSuffix d) = false :=
    isDirectiveLine_body hnn hall (durSuffix_chars hd)
  have hnsp : ' ' ∉ midiNoteToAbc p ++ durSuffix d := by
    intro hm
    rcases List.mem_append.1 hm with hm | hm
    · exact absurd (hall _ hm) (by decide)
    · rcases durSuffix_chars hd _ hm with hm2 | hm2
      · exact absurd hm2 (by decide)
      · exact absurd hm2 (by decide)
  have hfil : ([midiNoteToAbc p ++ durSuffix d] : List (List Char)).filter (· ≠ []) =
      [midiNoteToAbc p ++ durSuffix d] := by
    rw [List.filter_cons, if_pos (decide_eq_true hlnn)]
    rfl
  rw [decodeLine, if_neg hlnn]
  simp only [hdir, Bool.false_eq_true, if_false]
  rw [splitOnChar_no_sep hnsp, hfil]
  have hbd : st.base.getD (1 / 2) = 1 := by
    rw [hbase]
    rfl
  rw [hbd, tokLoop, h1]
  exact congrArg
    (fun x : ℚ => (Except.ok { st with notes := st.notes ++ [(p, x)] } :
      Except (List Char) DecState))
    (mul_one v)

/-! ## C1: decoding the encoded body and header -/

theorem decode_encBody (beats : ℚ) :
    ∀ (notes : List (Nat × ℚ)), (∀ nd ∈ notes, nd.1 ≤ 127 ∧ 0 < nd.2) →
      ∀ (acc : ℚ) (st : DecState), st.base = some 1 →
        ∃ (st' : DecState) (dec : List (Nat × ℚ)),
          lineLoop (encBody beats notes acc) st = .ok st' ∧
            st'.base = st.base ∧ st'.tempo = st.tempo ∧ st'.ts = st.ts ∧
            st'.notes = st.notes ++ dec ∧
            List.Forall₂ (fun a b => a.1 = b.1 ∧ |b.2 - a.2| < 1 / 4) notes dec := by
  intro notes
  induction notes with
  | nil =>
      intro _ acc st _
      exact ⟨st, [], by rw [encBody, lineLoop], rfl, rfl, rfl,
        by rw [List.append_nil], .nil⟩
  | cons nd t ih =>
      intro hv acc st hbase
      obtain ⟨p, d⟩ := nd
      have hpd := hv (p, d) (List.mem_cons_self _ _)
      have hp : p < 128 := by
        have := hpd.1
        omega
      obtain ⟨v, hdl, hvd, _⟩ := decodeLine_noteLine st hbase p hp d hpd.2
      have htv : ∀ x ∈ t, x.1 ≤ 127 ∧ 0 < x.2 :=
        fun x hx => hv x (List.mem_cons_of_mem _ hx)
      have hbase1 : ({ st with notes := st.notes ++ [(p, v)] } : DecState).base = some 1 :=
        hbase
      simp only [encBody]
      by_cases hcut : acc + d ≥ beats
      · rw [if_pos hcut]
        obtain ⟨st', dec, hll, hb, ht, hts, hns, hfa⟩ :=
          ih htv 0 { st with notes := st.notes ++ [(p, v)] } hbase1
        refine ⟨st', (p, v) :: dec, ?_, hb, ht, hts, ?_, .cons ⟨rfl, hvd⟩ hfa⟩
        · rw [lineLoop_cons_ok _ hdl, lineLoop_cons_ok _ (decodeLine_bar _), hll]
        · rw [hns]
          rw [List.append_assoc, List.singleton_append]
      · rw [if_neg hcut]
        obtain ⟨st', dec, hll, hb, ht, hts, hns, hfa⟩ :=
          ih htv (acc + d) { st with notes := st.notes ++ [(p, v)] } hbase1
        refine ⟨st', (p, v) :: dec, ?_, hb, ht, hts, ?_, .cons ⟨rfl, hvd⟩ hfa⟩
        · rw [lineLoop_cons_ok _ hdl, hll]
        · rw [hns]
          rw [List.append_assoc, List.singleton_append]

theorem lineLoop_header (tempo tsn tsd : Nat) :
    lineLoop
      [['X', ':', '1'],
       ['T', ':', 'C', 'o', 'n', 'v', 'e', 'r', 't', 'e', 'd', ' ', 'f', 'r', 'o', 'm',
        ' ', 'M', 'I', 'D', 'I'],
       'Q' :: ':' :: '1' :: '/' :: '4' :: '=' :: natDecimal tempo,
       'M' :: ':' :: (natDecimal tsn ++ '/' :: natDecimal tsd),
       ['L', ':', '1', '/', '4'],
       ['K', ':', 'C'],
       []] ⟨none, none, none, []⟩ =
      .ok ⟨some 1, some tempo, some (tsn, tsd), []⟩ := by
  rw [lineLoop_cons_ok _ (decodeLine_X _), lineLoop_cons_ok _ (decodeLine_T _),
    lineLoop_cons_ok _ (decodeLine_Q _ tempo), lineLoop_cons_ok _ (decodeLine_M _ tsn tsd),
    lineLoop_cons_ok _ (decodeLine_L _), lineLoop_cons_ok _ (decodeLine_K _),
    lineLoop_cons_ok _ (decodeLine_empty _), lineLoop]

/-! ## C1: the encoded text splits back into the encoded lines -/

theorem noNl_noteLine {p : Nat} (hp : p < 128) {d : ℚ} (hd : 0 < d) :
    '\n' ∉ midiNoteToAbc p ++ durSuffix d := by
  have hall : ∀ c ∈ midiNoteToAbc p, isPitchChar c = true :=
    List.all_eq_true.1 (midiNoteToAbc_all_pitch ⟨p, hp⟩)
  intro hm
  rcases List.mem_append.1 hm with hm | hm
  · exact absurd (hall _ hm) (by decide)
  · rcases durSuffix_chars hd _ hm with hm2 | hm2
    · exact absurd hm2 (by decide)
    · exact absurd hm2 (by decide)

theorem noNl_encBody (beats : ℚ) :
    ∀ (notes : List (Nat × ℚ)), (∀ nd ∈ notes, nd.1 ≤ 127 ∧ 0 < nd.2) →
      ∀ (acc : ℚ) (l : List Char), l ∈ encBody beats notes acc → '\n' ∉ l := by
  intro notes
  induction notes with
  | nil =>
      intro _ acc l hl
      rw [encBody] at hl
      cases hl
  | cons nd t ih =>
      intro hv acc l hl
      obtain ⟨p, d⟩ := nd
      have hpd := hv (p, d) (List.mem_cons_self _ _)
      have hp : p < 128 := by
        have := hpd.1
        omega
      have htv : ∀ x ∈ t, x.1 ≤ 127 ∧ 0 < x.2 :=
        fun x hx => hv x (List.mem_cons_of_mem _ hx)
      simp only [encBody] at hl
      by_cases hcut : acc + d ≥ beats
      · rw [if_pos hcut] at hl
        rcases List.mem_cons.1 hl with rfl | hl
        · exact noNl_noteLine hp hpd.2
        rcases List.mem_cons.1 hl with rfl | hl
        · decide
        · exact ih htv 0 l hl
      · rw [if_neg hcut] at hl
        rcases List.mem_cons.1 hl with rfl | hl
        · exact noNl_noteLine hp hpd.2
        · exact ih htv (acc + d) l hl

theorem noNl_header {tempo tsn tsd : Nat} {l : List Char}
    (hl : l ∈ ([['X', ':', '1'],
      ['T', ':', 'C', 'o', 'n', 'v', 'e', 'r', 't', 'e', 'd', ' ', 'f', 'r', 'o', 'm',
       ' ', 'M', 'I', 'D', 'I'],
      'Q' :: ':' :: '1' :: '/' :: '4' :: '=' :: natDecimal tempo,
      'M' :: ':' :: (natDecimal tsn ++ '/' :: natDecimal tsd),
      ['L', ':', '1', '/', '4'],
      ['K', ':', 'C'],
      []] : List (List Char))) : '\n' ∉ l := by
  rcases List.mem_cons.1 hl with rfl | hl
  · decide
  rcases List.mem_cons.1 hl with rfl | hl
  · decide
  rcases List.mem_cons.1 hl with rfl | hl
  · intro hm
    have hm' : '\n' ∈ (['Q', ':', '1', '/', '4', '='] : List Char) ++ natDecimal tempo := hm
    rcases List.mem_append.1 hm' with hm2 | hm2
    · exact absurd hm2 (by decide)
    · exact noNl_natDecimal tempo hm2
  rcases List.mem_cons.1 hl with rfl | hl
  · intro hm
    rcases List.mem_cons.1 hm with he | hm
    · exact absurd he (by decide)
    rcases List.mem_cons.1 hm with he | hm
    · exact absurd he (by decide)
    rcases List.mem_append.1 hm with hm2 | hm2
    · exact noNl_natDecimal tsn hm2
    rcases List.mem_cons.1 hm2 with he | hm2
    · exact absurd he (by decide)
    · exact noNl_natDecimal tsd hm2
  rcases List.mem_cons.1 hl with rfl | hl
  · decide
  rcases List.mem_cons.1 hl with rfl | hl
  · decide
  rcases List.mem_cons.1 hl with rfl | hl
  · decide
  · cases hl

theorem noNl_encodeLines {notes : List (Nat × ℚ)} {tempo tsn tsd : Nat}
    (hv : ∀ nd ∈ notes, nd.1 ≤ 127 ∧ 0 < nd.2) :
    ∀ l ∈ encodeLines notes tempo tsn tsd, '\n' ∉ l := by
  intro l hl
  simp only [encodeLines] at hl
  have hcore : ∀ m : List Char,
      m ∈ ([['X', ':', '1'],
        ['T', ':', 'C', 'o', 'n', 'v', 'e', 'r', 't', 'e', 'd', ' ', 'f', 'r', 'o', 'm',
         ' ', 'M', 'I', 'D', 'I'],
        'Q' :: ':' :: '1' :: '/' :: '4' :: '=' :: natDecimal tempo,
        'M' :: ':' :: (natDecimal tsn ++ '/' :: natDecimal tsd),
        ['L', ':', '1', '/', '4'],
        ['K', ':', 'C'],
        []] : List (List Char)) ++ encBody (tsn : ℚ) notes 0 → '\n' ∉ m := by
    intro m hm
    rcases List.mem_append.1 hm with hm | hm
    · exact noNl_header hm
    · exact noNl_encBody (tsn : ℚ) notes hv 0 m hm
  split_ifs at hl
  · exact hcore l hl
  · rcases List.mem_append.1 hl with hl | hl
    · exact hcore l hl
    · rcases List.mem_cons.1 hl with rfl | hl
      · decide
      · cases hl

theorem encodeLines_ne_nil (notes : List (Nat × ℚ)) (tempo tsn tsd : Nat) :
    encodeLines notes tempo tsn tsd ≠ [] := by
  simp only [encodeLines]
  split_ifs
  · exact List.cons_ne_nil _ _
  · exact List.append_ne_nil_of_right_ne_nil _ (List.cons_ne_nil _ _)

theorem splitOnChar_encodeChars (notes : List (Nat × ℚ)) (tempo tsn tsd : Nat)
    (hv : ∀ nd ∈ notes, nd.1 ≤ 127 ∧ 0 < nd.2) :
    splitOnChar '\n' (encodeChars notes tempo tsn tsd) = encodeLines notes tempo tsn tsd := by
  rw [encodeChars]
  exact splitOnChar_joinNl _ (encodeLines_ne_nil notes tempo tsn tsd) (noNl_encodeLines hv)

theorem encodeChars_head (notes : List (Nat × ℚ)) (tempo tsn tsd : Nat) :
    ∃ t, encodeChars notes tempo tsn tsd = 'X' :: t := by
  rw [encodeChars]
  simp only [encodeLines]
  split_ifs
  · exact ⟨_, rfl⟩
  · exact ⟨_, rfl⟩

/-! ## C1: full round trip -/

theorem lineLoop_encodeLines (notes : List (Nat × ℚ)) (tempo tsn tsd : Nat)
    (hv : ∀ nd ∈ notes, nd.1 ≤ 127 ∧ 0 < nd.2) :
    ∃ dec, lineLoop (encodeLines notes tempo tsn tsd) ⟨none, none, none, []⟩ =
        .ok ⟨some 1, some tempo, some (tsn, tsd), dec⟩ ∧
      List.Forall₂ (fun a b => a.1 = b.1 ∧ |b.2 - a.2| < 1 / 4) notes dec := by
  obtain ⟨st', dec, hll, hb, ht, hts, hns, hfa⟩ :=
    decode_encBody (tsn : ℚ) notes hv 0 ⟨some 1, some tempo, some (tsn, tsd), []⟩ rfl
  obtain ⟨b0, t0, ts0, ns0⟩ := st'
  dsimp only at hb ht hts hns
  rw [List.nil_append] at hns
  subst hb ht hts hns
  refine ⟨ns0, ?_, hfa⟩
  simp only [encodeLines]
  split_ifs
  · rw [lineLoop_append _ (lineLoop_header tempo tsn tsd), hll]
  · rw [List.append_assoc, lineLoop_append _ (lineLoop_header tempo tsn tsd),
      lineLoop_append _ hll, lineLoop_cons_ok _ (decodeLine_bar _), lineLoop]

/-- C1 (confirmed, modelled decoder): for every list of notes with pitches
in `0..127` and positive quarter-note durations, and for every tempo and
time signature, decoding the ABC text produced by the encoder succeeds
and returns a note list with exactly the same pitches in the same order,
each decoded duration within the quarter-base-unit rounding granularity
`1/4` of the original (the encoder's suffix ladder truncates to quarter
units over the `L:1/4` base). -/
theorem claim_C1 (notes : List (Nat × ℚ)) (tempo tsn tsd : Nat)
    (hv : ∀ nd ∈ notes, nd.1 ≤ 127 ∧ 0 < nd.2) :
    ∃ dec, decodeChars 120 (encodeChars notes tempo tsn tsd) =
        .ok (dec, tempo, (tsn, tsd)) ∧
      List.Forall₂ (fun a b => a.1 = b.1 ∧ |b.2 - a.2| < 1 / 4) notes dec := by
  obtain ⟨dec, hll, hfa⟩ := lineLoop_encodeLines notes tempo tsn tsd hv
  refine ⟨dec, ?_, hfa⟩
  obtain ⟨tl, htl⟩ := encodeChars_head notes tempo tsn tsd
  have hblank : (encodeChars notes tempo tsn tsd).all
      (fun c => c == ' ' || c == '\n' || c == '\t' || c == '\r') = false := by
    rw [htl, List.all_cons]
    rfl
  rw [decodeChars, if_neg (by
    intro hc
    rw [hblank] at hc
    exact Bool.false_ne_true hc)]
  rw [splitOnChar_encodeChars notes tempo tsn tsd hv, hll]
  rfl

/-- C1 witness: the round trip at the concrete two-note input
`[(60, 1), (62, 1/2)]` with tempo `120` and time signature `4/4`. -/
theorem claim_C1_witness :
    ∃ dec, decodeChars 120 (encodeChars [(60, 1), (62, 1 / 2)] 120 4 4) =
        .ok (dec, 120, (4, 4)) ∧
      List.Forall₂ (fun a b => a.1 = b.1 ∧ |b.2 - a.2| < 1 / 4)
        [(60, (1 : ℚ)), (62, 1 / 2)] dec :=
  claim_C1 [(60, 1), (62, 1 / 2)] 120 4 4 (by
    intro nd hnd
    rcases List.mem_cons.1 hnd with rfl | hnd
    · exact ⟨by norm_num, by norm_num⟩
    rcases List.mem_cons.1 hnd with rfl | hnd
    · exact ⟨by norm_num, by norm_num⟩
    · cases hnd)

end ABC2Midi

